import Mathlib

/-!
Verification development for the comments-manager plugin (`src/main.ts`).

Documents are modelled as `List Char` (JS strings), character offsets and
line numbers as `Nat`.  Each definition below is a shallow embedding of the
correspondingly named function in `src/main.ts`; comments point at the
source.  The settings field `commentPrefix` is called `commentMarker` here.
-/

set_option maxRecDepth 10000

/-- JS `\s` whitespace test, restricted to the ASCII whitespace characters
that occur in the documents at issue (space, tab, newline, carriage return). -/
def isWs (c : Char) : Bool :=
  c = ' ' || c = '\t' || c = '\n' || c = '\r'

/-- Embeds JS `String.prototype.trim`: strip whitespace from both ends. -/
def jsTrim (s : List Char) : List Char :=
  ((s.dropWhile isWs).reverse.dropWhile isWs).reverse

/-- JS `content.substring(s, e)` (with `s ≤ e`): characters in `[s, e)`. -/
def sliceList (content : List Char) (s e : Nat) : List Char :=
  (content.take e).drop s

/-- `interface CommentData` from `src/main.ts`. -/
structure CommentData where
  text : List Char
  line : Nat
  startPos : Nat
  endPos : Nat
  fullMatch : List Char
deriving DecidableEq, Repr

/-- `interface HeaderData` from `src/main.ts`. -/
structure HeaderData where
  text : List Char
  level : Nat
  line : Nat
deriving DecidableEq, Repr

/-- The settings fields consulted by the functions embedded here
(`commentPrefix` from the source is called `commentMarker`). -/
structure Settings where
  commentMarker : List Char
  printModeCalloutType : List Char
deriving DecidableEq, Repr

/-- `pat` occurs in `content` at absolute position `i`. -/
def occursAt (content pat : List Char) (i : Nat) : Bool :=
  pat.isPrefixOf (content.drop i)

/-- Least position `i ≥ start` at which `pat` occurs in `content`
(the regex engine's scan for the next delimiter occurrence). -/
def findFrom (content pat : List Char) (start : Nat) : Option Nat :=
  (List.range' start (content.length + 1 - start)).find? (occursAt content pat)

/-- Count of newline characters before offset `i`:
`(beforeComment.match (newline, global) or empty).length` in `extractComments`. -/
def lineOfPos (content : List Char) (i : Nat) : Nat :=
  ((content.take i).filter (fun c => c = '\n')).length

/-- One match of the comment pattern: first delimiter at `i`, closing
delimiter at `j`; `text` is the inner capture group trimmed, offsets are the
span of the whole match (from `extractComments` in `src/main.ts`). -/
def mkComment (content pat : List Char) (i j : Nat) : CommentData :=
  { text := jsTrim (sliceList content (i + pat.length) j)
    line := lineOfPos content i
    startPos := i
    endPos := j + pat.length
    fullMatch := sliceList content i (j + pat.length) }

/-- The scan loop of `extractComments`: the regex `pat(.*?)pat` with flags
`gs` repeatedly matches the earliest delimiter occurrence paired with the
nearest following occurrence and resumes after the match.  `fuel` bounds the
iteration count (each iteration advances `pos` by at least two for a
non-empty delimiter, so `content.length + 1` fuel is never exhausted). -/
def extractLoop (content pat : List Char) : Nat → Nat → List CommentData
  | _, 0 => []
  | pos, fuel + 1 =>
    match findFrom content pat pos with
    | none => []
    | some i =>
      match findFrom content pat (i + pat.length) with
      | none => []
      | some j => mkComment content pat i j :: extractLoop content pat (j + pat.length) fuel

/-- `extractComments` from `src/main.ts` (the delimiter is taken already
escaped: `escapeRegex` only makes the delimiter match literally). -/
def extractComments (content pat : List Char) : List CommentData :=
  extractLoop content pat 0 (content.length + 1)

/-- One line of `extractHeaders`: the regex `^(#{1,6})\s+(.+)$` applied to
`line.trim()`; `level` is the number of marker characters, `text` the
remaining content trimmed. -/
def parseHeaderLine (line : List Char) (idx : Nat) : Option HeaderData :=
  let t := jsTrim line
  let hashes := t.takeWhile (fun c => c = '#')
  let rest := t.dropWhile (fun c => c = '#')
  if 1 ≤ hashes.length ∧ hashes.length ≤ 6 then
    let ws := rest.takeWhile isWs
    let body := rest.dropWhile isWs
    if 1 ≤ ws.length ∧ 1 ≤ body.length then
      some { text := jsTrim body, level := hashes.length, line := idx }
    else none
  else none

/-- `extractHeaders` from `src/main.ts`: split on newlines, parse each line,
document order. -/
def extractHeaders (content : List Char) : List HeaderData :=
  ((content.splitOn '\n').enum).filterMap (fun p => parseHeaderLine p.2 p.1)

/-! ## Grouping comments by headers (`groupCommentsByHeaders`) -/

/-- Comparator `(a, b) => a.line - b.line` used to sort headers ascending. -/
def headerLE (a b : HeaderData) : Prop := a.line ≤ b.line

instance : DecidableRel headerLE := fun a b => Nat.decLe a.line b.line

instance : IsTotal HeaderData headerLE := ⟨fun a b => Nat.le_total a.line b.line⟩

instance : IsTrans HeaderData headerLE := ⟨fun _ _ _ h1 h2 => Nat.le_trans h1 h2⟩

/-- Nearest preceding header: scan the ascending-sorted header list from the
end backwards and take the first header whose `line` is strictly below the
given line (the loop in `groupCommentsByHeaders`, duplicated verbatim in
both versions of `createCalloutFromComment`). -/
def findNearestHeader (sortedHeaders : List HeaderData) (line : Nat) : Option HeaderData :=
  sortedHeaders.reverse.find? (fun h => decide (h.line < line))

/-- A flat group accumulated by `groupCommentsByHeaders` before tree
assembly: a header (or null) together with its directly assigned comments. -/
structure FlatGroup where
  header : Option HeaderData
  comments : List CommentData
deriving DecidableEq, Repr

/-- Two nearest-header values address the same bucket: both null, or both
non-null with equal `line` (the `groups.find` predicate in
`groupCommentsByHeaders`). -/
def sameBucket (gh nh : Option HeaderData) : Bool :=
  match gh, nh with
  | none, none => true
  | some a, some b => a.line == b.line
  | _, _ => false

/-- Add one comment to the flat group list: append to the first group for its
bucket, or create a new group at the end (`groupCommentsByHeaders` body). -/
def addComment : List FlatGroup → Option HeaderData → CommentData → List FlatGroup
  | [], nh, c => [{ header := nh, comments := [c] }]
  | g :: gs, nh, c =>
    if sameBucket g.header nh then { g with comments := g.comments ++ [c] } :: gs
    else g :: addComment gs nh c

/-- Flat-group comparator: the null group first, then by header line. -/
def groupLE (a b : FlatGroup) : Prop :=
  match a.header, b.header with
  | none, _ => True
  | some _, none => False
  | some x, some y => x.line ≤ y.line

instance : DecidableRel groupLE := fun a b => by
  unfold groupLE
  match a.header, b.header with
  | none, _ => exact inferInstanceAs (Decidable True)
  | some _, none => exact inferInstanceAs (Decidable False)
  | some x, some y => exact Nat.decLe x.line y.line

/-- The group tree node (`interface CommentGroup`): header (or null), direct
comments, child groups, collapse flag.  The `parent` back-reference of the
source is a non-owning pointer used only for lookup and is not represented. -/
inductive CommentGroup : Type where
  | mk : Option HeaderData → List CommentData → List CommentGroup → Bool → CommentGroup
deriving Repr

def CommentGroup.header : CommentGroup → Option HeaderData
  | .mk h _ _ _ => h

def CommentGroup.comments : CommentGroup → List CommentData
  | .mk _ c _ _ => c

def CommentGroup.children : CommentGroup → List CommentGroup
  | .mk _ _ ch _ => ch

def CommentGroup.isCollapsed : CommentGroup → Bool
  | .mk _ _ _ b => b

/-- A group while it sits on the open-ancestor stack of
`buildHierarchicalGroups`: its header (always non-null on the stack — the
source asserts `header!`), direct comments, and the children attached so
far.  The source mutates `children` in place while the group is on the
stack; here children accumulate in the entry and are attached when the
entry is popped, which produces the same tree. -/
structure BuildEntry where
  header : HeaderData
  comments : List CommentData
  children : List CommentGroup
deriving Repr

/-- Close a stack entry into a finished group node. -/
def closeEntry (e : BuildEntry) : CommentGroup :=
  .mk (some e.header) e.comments e.children false

/-- The popping phase of the `while` loop in `buildHierarchicalGroups`,
after the first pop: the group `g` just closed is attached as the last child
of the entry below it (or becomes a root when nothing is below), and popping
continues while the new top's header level is still `≥ lvl`. -/
def attachPop (lvl : Nat) (g : CommentGroup) :
    List BuildEntry → List CommentGroup → List BuildEntry × List CommentGroup
  | [], res => ([], res ++ [g])
  | p :: ps, res =>
    let p' : BuildEntry := { p with children := p.children ++ [g] }
    if lvl ≤ p'.header.level then attachPop lvl (closeEntry p') ps res
    else (p' :: ps, res)

/-- Pop the stack while the top's header level is `≥ lvl`
(`while (stack.length > 0 && stack[stack.length-1].header!.level >= group.header.level)`);
each popped group is attached as the last child of the entry below it, or
appended to the root list when nothing is below.  The source mutates
`children` in place at push time; attaching on pop yields the same tree. -/
def popStack (lvl : Nat) (stack : List BuildEntry) (res : List CommentGroup) :
    List BuildEntry × List CommentGroup :=
  match stack with
  | [] => ([], res)
  | top :: rest =>
    if lvl ≤ top.header.level then attachPop lvl (closeEntry top) rest res
    else (top :: rest, res)

/-- Drain the tail of the stack below a just-closed group `g` at the end of
the assembly loop: every remaining entry closes and attaches below. -/
def flushAttach (g : CommentGroup) : List BuildEntry → List CommentGroup → List CommentGroup
  | [], res => res ++ [g]
  | p :: ps, res => flushAttach (closeEntry { p with children := p.children ++ [g] }) ps res

/-- Drain the whole stack at the end of the assembly loop. -/
def flushStack (stack : List BuildEntry) (res : List CommentGroup) : List CommentGroup :=
  match stack with
  | [] => res
  | top :: rest => flushAttach (closeEntry top) rest res

/-- One iteration of the tree-assembly loop in `buildHierarchicalGroups`:
a null-header group goes straight to the root list; otherwise pop to the
nearest strictly shallower open ancestor and push the group. -/
def buildStep (st : List BuildEntry × List CommentGroup) (g : FlatGroup) :
    List BuildEntry × List CommentGroup :=
  match g.header with
  | none => (st.1, st.2 ++ [CommentGroup.mk none g.comments [] false])
  | some h =>
    let popped := popStack h.level st.1 st.2
    (⟨h, g.comments, []⟩ :: popped.1, popped.2)

/-- `commentGroupsByHeaderLine.get(line)`: the `Map` is filled by a forward
pass with later entries overwriting earlier ones, so look up the last flat
group whose header has the given line. -/
def lookupByLine (flatGroups : List FlatGroup) (l : Nat) : Option FlatGroup :=
  flatGroups.reverse.find? (fun g =>
    match g.header with
    | some h => h.line == l
    | none => false)

/-- The `noHeaderGroup` variable: the last flat group with a null header. -/
def noHeaderGroupOf (flatGroups : List FlatGroup) : Option FlatGroup :=
  flatGroups.reverse.find? (fun g => g.header.isNone)

/-- The per-header part of the `allGroups` list of
`buildHierarchicalGroups`: one group per header in ascending line order —
the existing comment group for that line, or a fresh empty group. -/
def mappedGroups (flatGroups : List FlatGroup) (allHeaders : List HeaderData) : List FlatGroup :=
  (List.insertionSort headerLE allHeaders).map (fun h =>
    match lookupByLine flatGroups h.line with
    | some g => g
    | none => { header := some h, comments := [] })

/-- The `allGroups` list of `buildHierarchicalGroups`: the null-header group
first (when present), then the per-header groups. -/
def mkAllGroups (flatGroups : List FlatGroup) (allHeaders : List HeaderData) : List FlatGroup :=
  (match noHeaderGroupOf flatGroups with
   | some g => [g]
   | none => []) ++ mappedGroups flatGroups allHeaders

/-- `buildHierarchicalGroups` from `src/main.ts` (`allHeaders` is the header
list stored by `groupCommentsByHeaders` in `this.allHeaders`). -/
def buildHierarchicalGroups (flatGroups : List FlatGroup) (allHeaders : List HeaderData) :
    List CommentGroup :=
  let st := (mkAllGroups flatGroups allHeaders).foldl buildStep ([], [])
  flushStack st.1 st.2

/-- `groupCommentsByHeaders` from `src/main.ts`: nearest-preceding
assignment into flat groups, sort (null group first, then by line), then
hierarchical assembly. -/
def groupCommentsByHeaders (comments : List CommentData) (headers : List HeaderData) :
    List CommentGroup :=
  let sortedHeaders := List.insertionSort headerLE headers
  let groups := comments.foldl
    (fun gs c => addComment gs (findNearestHeader sortedHeaders c.line) c) []
  let sortedGroups := List.insertionSort groupLE groups
  buildHierarchicalGroups sortedGroups headers

/-! ## Callout creation and conversion -/

/-- Decimal rendering of `line + 1` for the `(Line N)` part of a title. -/
def natChars (n : Nat) : List Char := Nat.toDigits 10 n

/-- The default callout title of `createCalloutFromComment`: `"Comment"`,
or `"Comment: <nearest header text>"`, followed by `" (Line <line+1>)"`.
The nearest-header scan is the same backward loop as in
`groupCommentsByHeaders` (`findNearestHeader`). -/
def defaultCalloutTitle (headers : List HeaderData) (line : Nat) : List Char :=
  (match findNearestHeader headers line with
   | none => "Comment".toList
   | some h => "Comment: ".toList ++ h.text) ++
  " (Line ".toList ++ natChars (line + 1) ++ ")".toList

/-- The callout body: split the comment text on newlines, trim each line,
drop empty lines, join with `"\n> "`. -/
def calloutBody (text : List Char) : List Char :=
  List.intercalate "\n> ".toList
    (((text.splitOn '\n').map jsTrim).filter (fun l => l.length ≠ 0))

/-- The callout template
`"\n> [!" + calloutType + "]+ " + title + "\n> " + commentText + "\n"`. -/
def mkCallout (calloutType title text : List Char) : List Char :=
  "\n> [!".toList ++ calloutType ++ "]+ ".toList ++ title ++ "\n> ".toList ++
    calloutBody text ++ "\n".toList

/-- Plugin-level `createCalloutFromComment(comment, headers)` from
`src/main.ts` (used by print-mode bulk conversion). -/
def createCalloutFromComment (s : Settings) (comment : CommentData)
    (headers : List HeaderData) : List Char :=
  mkCallout s.printModeCalloutType (defaultCalloutTitle headers comment.line) comment.text

/-- View-level `createCalloutFromComment(comment, headers, customTitle)`:
a non-empty trimmed custom title replaces the default title. -/
def createCalloutFromCommentCustom (s : Settings) (comment : CommentData)
    (headers : List HeaderData) (customTitle : List Char) : List Char :=
  let title :=
    if 0 < (jsTrim customTitle).length then jsTrim customTitle
    else defaultCalloutTitle headers comment.line
  mkCallout s.printModeCalloutType title comment.text

/-- Comparator `(a, b) => b.startPos - a.startPos`: descending start offset. -/
def startGE (a b : CommentData) : Prop := b.startPos ≤ a.startPos

instance : DecidableRel startGE := fun a b => Nat.decLe b.startPos a.startPos

/-- Replace the span `[startPos, endPos)` of `result` by `repl`
(`result.substring(0, startPos) + repl + result.substring(endPos)`). -/
def replaceSpan (result : List Char) (startPos endPos : Nat) (repl : List Char) : List Char :=
  sliceList result 0 startPos ++ repl ++ result.drop endPos

/-- `convertCommentsToCallouts` from `src/main.ts`: extract comments and
headers, and when comments exist, replace each comment span by its callout,
working through the comments in decreasing `startPos` order. -/
def convertCommentsToCallouts (s : Settings) (content : List Char) : List Char :=
  let comments := extractComments content s.commentMarker
  let headers := extractHeaders content
  if comments.length = 0 then content
  else
    (List.insertionSort startGE comments).foldl
      (fun result c => replaceSpan result c.startPos c.endPos
        (createCalloutFromComment s c headers))
      content

/-- `activatePrintMode`: abort (`none`) on empty file or when conversion
changes nothing; otherwise stage the pair (original, converted) shown in the
preview modal. -/
def activatePrintMode (s : Settings) (editorText : List Char) :
    Option (List Char × List Char) :=
  if (jsTrim editorText).length = 0 then none
  else
    let convertedContent := convertCommentsToCallouts s editorText
    if convertedContent == editorText then none
    else some (editorText, convertedContent)

/-- `triggerPDFExport`: read `originalContent` from the editor, write the
converted content into it, and return the new editor text together with the
`restoreContent` action, which writes the saved original back regardless of
the editor state it is applied to. -/
def triggerPDFExport (convertedContent editorText : List Char) :
    List Char × (List Char → List Char) :=
  let originalContent := editorText
  (convertedContent, fun _ => originalContent)

/-! ## Edit, delete and single conversion (`CommentsView` methods) -/

/-- `performCommentUpdate`: replace the comment span with
`marker + " " + newText + " " + marker`. -/
def performCommentUpdate (marker : List Char) (content : List Char)
    (comment : CommentData) (newText : List Char) : List Char :=
  let beforeComment := sliceList content 0 comment.startPos
  let afterComment := content.drop comment.endPos
  let newComment := marker ++ [' '] ++ newText ++ [' '] ++ marker
  beforeComment ++ newComment ++ afterComment

/-- Embeds `newContent.replace(/  +/g, ' ')` (the delete-path cleanup):
every maximal run of two or more spaces becomes a single space.  The flag
records whether the previous character was a space, so at most one space per
run is emitted. -/
def collapseSpacesAux : Bool → List Char → List Char
  | _, [] => []
  | inRun, c :: rest =>
    if c = ' ' then
      if inRun then collapseSpacesAux true rest
      else ' ' :: collapseSpacesAux true rest
    else c :: collapseSpacesAux false rest

def collapseSpaces (l : List Char) : List Char := collapseSpacesAux false l

/-- Tier (a) relocation used by all three mutating operations: first fresh
comment with equal `text` and equal `line`. -/
def findTextLine (fresh : List CommentData) (stale : CommentData) : Option CommentData :=
  fresh.find? (fun c => c.text == stale.text && c.line == stale.line)

/-- Text-only relocation (`currentComments.find(c => c.text === comment.text)`),
used by `updateCommentInEditor` as its fallback. -/
def findTextOnly (fresh : List CommentData) (stale : CommentData) : Option CommentData :=
  fresh.find? (fun c => c.text == stale.text)

/-- `updateCommentInEditor` (the text transformation it performs on the
active editor): relocate by exact (text, line), falling back to text-only;
on success replace the relocated span, otherwise leave the text unchanged
(the source only calls `refresh()`). -/
def updateCommentInEditor (marker : List Char) (content : List Char)
    (stale : CommentData) (newText : List Char) : List Char :=
  let currentComments := extractComments content marker
  match findTextLine currentComments stale with
  | some m => performCommentUpdate marker content m newText
  | none =>
    match findTextOnly currentComments stale with
    | some m => performCommentUpdate marker content m newText
    | none => content

/-- `deleteCommentFromEditor`: relocate by exact (text, line) only; on
success splice out the span and collapse multi-space runs over the whole
document; otherwise leave the text unchanged (the source only refreshes). -/
def deleteCommentFromEditor (marker : List Char) (content : List Char)
    (stale : CommentData) : List Char :=
  match findTextLine (extractComments content marker) stale with
  | some m =>
    let beforeComment := sliceList content 0 m.startPos
    let afterComment := content.drop m.endPos
    collapseSpaces (beforeComment ++ afterComment)
  | none => content

/-- `convertCommentToCallout` (the view method): relocate by exact
(text, line) only; on success replace the span with the callout built from
freshly extracted headers, otherwise leave the text unchanged. -/
def convertCommentToCalloutOp (s : Settings) (content : List Char)
    (stale : CommentData) (customTitle : List Char) : List Char :=
  match findTextLine (extractComments content s.commentMarker) stale with
  | some m =>
    let headers := extractHeaders content
    let callout := createCalloutFromCommentCustom s m headers customTitle
    sliceList content 0 m.startPos ++ callout ++ content.drop m.endPos
  | none => content

/-! ## Collapse state machine (`toggleGroupCollapse`, `collapseAllChildren`) -/

mutual

/-- `collapseAllChildren` applied to one child: set its flag and recurse. -/
def collapseChild : CommentGroup → CommentGroup
  | .mk h c ch _ => .mk h c (collapseChildList ch) true

def collapseChildList : List CommentGroup → List CommentGroup
  | [] => []
  | g :: gs => collapseChild g :: collapseChildList gs

end

/-- `collapseAllChildren` from `src/main.ts`: set every descendant (not the
group itself) to collapsed. -/
def collapseAllChildren : CommentGroup → CommentGroup
  | .mk h c ch b => .mk h c (collapseChildList ch) b

/-- `toggleGroupCollapse` (the group-state part): flip the flag; when the
new state is collapsed, also collapse all descendants. -/
def toggleGroupCollapse (g : CommentGroup) : CommentGroup :=
  let g' := CommentGroup.mk g.header g.comments g.children (!g.isCollapsed)
  if g'.isCollapsed then collapseAllChildren g' else g'

mutual

/-- The group and every descendant group is collapsed. -/
def allCollapsed : CommentGroup → Bool
  | .mk _ _ ch b => b && allCollapsedList ch

def allCollapsedList : List CommentGroup → Bool
  | [] => true
  | g :: gs => allCollapsed g && allCollapsedList gs

end

/-! ## Observation functions on group forests -/

mutual

/-- Pre-order list of the headers carried by a group and its descendants. -/
def groupHeaders : CommentGroup → List HeaderData
  | .mk h _ ch _ => (match h with | some hd => [hd] | none => []) ++ groupHeadersList ch

def groupHeadersList : List CommentGroup → List HeaderData
  | [] => []
  | g :: gs => groupHeaders g ++ groupHeadersList gs

end

mutual

/-- Parent/child edges of a tree in pre-order: the pair
`(label of the parent, the group's own header)`, with label `none` for
roots; children carry their parent's header as label. -/
def edgesG (parent : Option HeaderData) :
    CommentGroup → List (Option HeaderData × Option HeaderData)
  | .mk h _ ch _ => (parent, h) :: edgesList h ch

def edgesList (parent : Option HeaderData) :
    List CommentGroup → List (Option HeaderData × Option HeaderData)
  | [] => []
  | g :: gs => edgesG parent g ++ edgesList parent gs

end

/-- All parent/child edges of a forest (roots labelled `none`). -/
def edgesForest (forest : List CommentGroup) : List (Option HeaderData × Option HeaderData) :=
  edgesList none forest

mutual

/-- Every group of a tree (the tree itself and all descendants). -/
def allSubG : CommentGroup → List CommentGroup
  | .mk h c ch b => .mk h c ch b :: allSubList ch

def allSubList : List CommentGroup → List CommentGroup
  | [] => []
  | g :: gs => allSubG g ++ allSubList gs

end

/-- The header of the entry a pushed group would be attached under:
the top of the open-ancestor stack. -/
def parentLabel : List BuildEntry → Option HeaderData
  | [] => none
  | e :: _ => some e.header

/-- Nearest previously seen header with level strictly below `lvl`
(`seen` lists the processed headers most recent first). -/
def specParent (seen : List HeaderData) (lvl : Nat) : Option HeaderData :=
  seen.find? (fun p => decide (p.level < lvl))

/-- Specification edges for a sequence of group headers: a null-header group
is a root; a header nests under the nearest preceding strictly shallower
header, or is a root when none exists. -/
def edgesSpec (seen : List HeaderData) :
    List (Option HeaderData) → List (Option HeaderData × Option HeaderData)
  | [] => []
  | none :: hs => (none, none) :: edgesSpec seen hs
  | some h :: hs => (specParent seen h.level, some h) :: edgesSpec (h :: seen) hs

/-! ## Spec-side tiered relocation (for claim C1) -/

/-- `|a - b|` on naturals. -/
def lineDist (a b : Nat) : Nat := max a b - min a b

/-- Modelled from the spec (section 4.4), for comparison with the code's
relocation in the mutating operations: try (a) exact match on text and
line; then (b) text and line distance at most 2; then (c) text alone. -/
def specRelocateTiered (fresh : List CommentData) (stale : CommentData) : Option CommentData :=
  match findTextLine fresh stale with
  | some m => some m
  | none =>
    match fresh.find? (fun c => c.text == stale.text && decide (lineDist c.line stale.line ≤ 2)) with
    | some m => some m
    | none => findTextOnly fresh stale

/-! ## General list helpers -/

theorem sliceList_zero (content : List Char) (e : Nat) :
    sliceList content 0 e = content.take e := by
  simp [sliceList]

theorem take_append_len {A B : List Char} {n : Nat} (h : A.length = n) :
    (A ++ B).take n = A := by
  subst h; exact List.take_left A B

theorem drop_append_len {A B : List Char} {n : Nat} (h : A.length = n) :
    (A ++ B).drop n = B := by
  subst h; exact List.drop_left A B

/-! ## Claim C6: edit-commit replaces exactly the span -/

/-- The replacement string written on edit-commit. -/
def editReplacement (marker newText : List Char) : List Char :=
  marker ++ [' '] ++ newText ++ [' '] ++ marker

theorem performCommentUpdate_eq (marker content newText : List Char) (c : CommentData) :
    performCommentUpdate marker content c newText =
      (content.take c.startPos ++ editReplacement marker newText) ++ content.drop c.endPos := by
  simp [performCommentUpdate, editReplacement, sliceList_zero]

theorem length_take_of_le {l : List Char} {n : Nat} (h : n ≤ l.length) :
    (l.take n).length = n := by
  simp [List.length_take, Nat.min_eq_left h]

/-- C6 frame conditions, shared with the witness below. -/
theorem editCommit_frame_parts (marker content newText : List Char) (c : CommentData)
    (hse : c.startPos ≤ c.endPos) (hel : c.endPos ≤ content.length) :
    (performCommentUpdate marker content c newText).take c.startPos
        = content.take c.startPos ∧
    sliceList (performCommentUpdate marker content c newText) c.startPos
        (c.startPos + (editReplacement marker newText).length)
        = editReplacement marker newText ∧
    (performCommentUpdate marker content c newText).drop
        (c.startPos + (editReplacement marker newText).length)
        = content.drop c.endPos ∧
    (performCommentUpdate marker content c newText).length
        = content.length - (c.endPos - c.startPos) + (editReplacement marker newText).length := by
  have hsl : c.startPos ≤ content.length := Nat.le_trans hse hel
  have hA : (content.take c.startPos).length = c.startPos := length_take_of_le hsl
  have hAR : ((content.take c.startPos ++ editReplacement marker newText)).length
      = c.startPos + (editReplacement marker newText).length := by
    simp [List.length_append, hA]
  rw [performCommentUpdate_eq]
  refine ⟨?_, ?_, ?_, ?_⟩
  · rw [List.append_assoc]
    exact take_append_len hA
  · unfold sliceList
    rw [take_append_len hAR, List.drop_append_of_le_length (Nat.le_of_eq hA.symm),
      List.drop_of_length_le (Nat.le_of_eq hA), List.nil_append]
  · exact drop_append_len hAR
  · simp [List.length_append, hA, List.length_drop]
    omega

/-- The stale reference used in the contrast example: the comment `"c"` on
line 1 of `"a  b\n%% c %%"` (note the double space before the comment). -/
def staleSp : CommentData :=
  { text := ['c'], line := 1, startPos := 5, endPos := 12, fullMatch := "%% c %%".toList }

def docSp : List Char := "a  b\n%% c %%".toList

/-- C6: when an edit is committed with changed text, the relocated span is
replaced by `marker + " " + newText + " " + marker` and every character
outside the span is unchanged; the multiple-space cleanup runs only on the
delete path (the unrelated run `"a  b"` survives an edit-commit but is
collapsed by a delete). -/
theorem editCommit_replaces_span_only (marker content newText : List Char) (c : CommentData)
    (hse : c.startPos ≤ c.endPos) (hel : c.endPos ≤ content.length) :
    ((performCommentUpdate marker content c newText).take c.startPos
        = content.take c.startPos ∧
      sliceList (performCommentUpdate marker content c newText) c.startPos
        (c.startPos + (editReplacement marker newText).length)
        = editReplacement marker newText ∧
      (performCommentUpdate marker content c newText).drop
        (c.startPos + (editReplacement marker newText).length)
        = content.drop c.endPos ∧
      (performCommentUpdate marker content c newText).length
        = content.length - (c.endPos - c.startPos) + (editReplacement marker newText).length) ∧
    updateCommentInEditor "%%".toList docSp staleSp ['d'] = "a  b\n%% d %%".toList ∧
    deleteCommentFromEditor "%%".toList docSp staleSp = "a b\n".toList := by
  exact ⟨editCommit_frame_parts marker content newText c hse hel, by decide, by decide⟩

theorem editCommit_replaces_span_only_witness :
    ((0:Nat) ≤ 7 ∧ 7 ≤ ("%% a %%".toList).length) ∧
    (((performCommentUpdate "%%".toList "%% a %%".toList
          { text := ['a'], line := 0, startPos := 0, endPos := 7,
            fullMatch := "%% a %%".toList } ['b']).take 0
        = ("%% a %%".toList).take 0 ∧
      sliceList (performCommentUpdate "%%".toList "%% a %%".toList
          { text := ['a'], line := 0, startPos := 0, endPos := 7,
            fullMatch := "%% a %%".toList } ['b']) 0
        (0 + (editReplacement "%%".toList ['b']).length)
        = editReplacement "%%".toList ['b'] ∧
      (performCommentUpdate "%%".toList "%% a %%".toList
          { text := ['a'], line := 0, startPos := 0, endPos := 7,
            fullMatch := "%% a %%".toList } ['b']).drop
        (0 + (editReplacement "%%".toList ['b']).length)
        = ("%% a %%".toList).drop 7 ∧
      (performCommentUpdate "%%".toList "%% a %%".toList
          { text := ['a'], line := 0, startPos := 0, endPos := 7,
            fullMatch := "%% a %%".toList } ['b']).length
        = ("%% a %%".toList).length - (7 - 0) + (editReplacement "%%".toList ['b']).length) ∧
    updateCommentInEditor "%%".toList docSp staleSp ['d'] = "a  b\n%% d %%".toList ∧
    deleteCommentFromEditor "%%".toList docSp staleSp = "a b\n".toList) :=
  ⟨⟨by decide, by decide⟩,
    editCommit_replaces_span_only "%%".toList "%% a %%".toList ['b']
      { text := ['a'], line := 0, startPos := 0, endPos := 7, fullMatch := "%% a %%".toList }
      (by decide) (by decide)⟩

/-! ## Claim C9: collapse cascades down, expand does not -/

mutual

theorem allCollapsed_collapseChild : ∀ g : CommentGroup, allCollapsed (collapseChild g) = true
  | .mk h c ch _ => by
    simp [collapseChild, allCollapsed, allCollapsedList_collapseChildList ch]

theorem allCollapsedList_collapseChildList :
    ∀ gs : List CommentGroup, allCollapsedList (collapseChildList gs) = true
  | [] => rfl
  | g :: gs => by
    simp [collapseChildList, allCollapsedList, allCollapsed_collapseChild g,
      allCollapsedList_collapseChildList gs]

end

/-- Collapsing an expanded group collapses it and every descendant. -/
theorem toggle_collapse_all (g : CommentGroup) (hexp : g.isCollapsed = false) :
    allCollapsed (toggleGroupCollapse g) = true := by
  obtain ⟨h, c, ch, b⟩ := g
  simp [CommentGroup.isCollapsed] at hexp
  subst hexp
  simp [toggleGroupCollapse, CommentGroup.isCollapsed, CommentGroup.header,
    CommentGroup.comments, CommentGroup.children, collapseAllChildren, allCollapsed,
    allCollapsedList_collapseChildList ch]

/-- Expanding a collapsed group only flips its own flag: children, and hence
all descendants' collapse states, are untouched. -/
theorem toggle_expand_keeps_children (g : CommentGroup) (hcol : g.isCollapsed = true) :
    toggleGroupCollapse g = CommentGroup.mk g.header g.comments g.children false := by
  obtain ⟨h, c, ch, b⟩ := g
  simp [CommentGroup.isCollapsed] at hcol
  subst hcol
  simp [toggleGroupCollapse, CommentGroup.isCollapsed, CommentGroup.header,
    CommentGroup.comments, CommentGroup.children]

/-- The concrete A/B/C groups of the claim: all initially expanded. -/
def grpC : CommentGroup := .mk (some { text := ['C'], level := 3, line := 4 }) [] [] false

def grpB : CommentGroup := .mk (some { text := ['B'], level := 2, line := 2 }) [] [grpC] false

def grpA : CommentGroup := .mk (some { text := ['A'], level := 1, line := 0 }) [] [grpB] false

/-- C9: collapsing a group collapses every descendant, expanding leaves
descendants' states unchanged; in particular collapsing and re-expanding `A`
(with expanded child `B` and grandchild `C`) leaves `B` and `C` collapsed. -/
theorem collapse_state_machine (g : CommentGroup)
    (hexp : g.isCollapsed = false) :
    allCollapsed (toggleGroupCollapse g) = true ∧
    (∀ g' : CommentGroup, g'.isCollapsed = true →
      toggleGroupCollapse g' = CommentGroup.mk g'.header g'.comments g'.children false) ∧
    toggleGroupCollapse (toggleGroupCollapse grpA) =
      CommentGroup.mk (some { text := ['A'], level := 1, line := 0 }) []
        [CommentGroup.mk (some { text := ['B'], level := 2, line := 2 }) []
          [CommentGroup.mk (some { text := ['C'], level := 3, line := 4 }) [] [] true] true]
        false :=
  ⟨toggle_collapse_all g hexp, toggle_expand_keeps_children, by rfl⟩

theorem collapse_state_machine_witness :
    grpA.isCollapsed = false ∧
    (allCollapsed (toggleGroupCollapse grpA) = true ∧
      (∀ g' : CommentGroup, g'.isCollapsed = true →
        toggleGroupCollapse g' = CommentGroup.mk g'.header g'.comments g'.children false) ∧
      toggleGroupCollapse (toggleGroupCollapse grpA) =
        CommentGroup.mk (some { text := ['A'], level := 1, line := 0 }) []
          [CommentGroup.mk (some { text := ['B'], level := 2, line := 2 }) []
            [CommentGroup.mk (some { text := ['C'], level := 3, line := 4 }) [] [] true] true]
          false) :=
  ⟨by rfl, collapse_state_machine grpA (by rfl)⟩

/-! ## Claim C1: relocation tiers of the mutating operations -/

/-- The two-tier relocation that `updateCommentInEditor` actually performs:
exact (text, line) match, then text-only match. -/
def specRelocateAC (fresh : List CommentData) (stale : CommentData) : Option CommentData :=
  match findTextLine fresh stale with
  | some m => some m
  | none => findTextOnly fresh stale

def docC1 : List Char := "x\n%% a %%".toList

/-- A stale reference whose comment has since moved from line 0 to line 1. -/
def staleC1 : CommentData :=
  { text := ['a'], line := 0, startPos := 0, endPos := 0, fullMatch := [] }

/-- C1 counterexample: the spec's tier (b) (text and line distance ≤ 2)
locates the moved comment, but `deleteCommentFromEditor` — which only
matches on exact (text, line) — makes no change to the document, although
acting on the located comment would have changed it. -/
theorem stale_delete_has_no_proximity_tier :
    (specRelocateTiered (extractComments docC1 "%%".toList) staleC1).isSome = true ∧
    deleteCommentFromEditor "%%".toList docC1 staleC1 = docC1 ∧
    collapseSpaces (docC1.take 2 ++ docC1.drop 9) ≠ docC1 := by
  exact ⟨by decide, by decide, by decide⟩

/-- C1 amended: edit-commit relocates by exact (text, line) and then by text
alone; delete and single conversion relocate by exact (text, line) only; in
every case a failed relocation leaves the document text unchanged (the
operation only triggers a re-render). -/
theorem mutating_ops_relocation (marker content : List Char) (stale : CommentData)
    (newText customTitle : List Char) (s : Settings) :
    updateCommentInEditor marker content stale newText =
      (match specRelocateAC (extractComments content marker) stale with
       | some m => performCommentUpdate marker content m newText
       | none => content) ∧
    deleteCommentFromEditor marker content stale =
      (match findTextLine (extractComments content marker) stale with
       | some m => collapseSpaces (content.take m.startPos ++ content.drop m.endPos)
       | none => content) ∧
    convertCommentToCalloutOp s content stale customTitle =
      (match findTextLine (extractComments content s.commentMarker) stale with
       | some m => content.take m.startPos ++
           createCalloutFromCommentCustom s m (extractHeaders content) customTitle ++
           content.drop m.endPos
       | none => content) := by
  refine ⟨?_, ?_, ?_⟩
  · unfold updateCommentInEditor specRelocateAC
    cases hfl : findTextLine (extractComments content marker) stale with
    | some m => simp [hfl]
    | none =>
      cases hto : findTextOnly (extractComments content marker) stale <;> simp [hfl, hto]
  · unfold deleteCommentFromEditor
    cases hfl : findTextLine (extractComments content marker) stale with
    | some m => simp [hfl, sliceList_zero]
    | none => simp [hfl]
  · unfold convertCommentToCalloutOp
    cases hfl : findTextLine (extractComments content s.commentMarker) stale with
    | some m => simp [hfl, sliceList_zero]
    | none => simp [hfl]

/-! ## Claim C7: what a confirmed delete does to the text -/

theorem collapseSpacesAux_filter :
    ∀ (l : List Char) (b : Bool),
      (collapseSpacesAux b l).filter (fun c => !(c == ' '))
        = l.filter (fun c => !(c == ' '))
  | [], _ => rfl
  | c :: rest, b => by
    by_cases hc : c = ' '
    · subst hc
      cases b <;>
        simp [collapseSpacesAux, collapseSpacesAux_filter rest true]
    · simp [collapseSpacesAux, hc, collapseSpacesAux_filter rest false]

theorem collapseSpacesAux_props :
    ∀ l : List Char,
      (∀ b, List.Chain' (fun a b2 => ¬(a = ' ' ∧ b2 = ' ')) (collapseSpacesAux b l)) ∧
      (∀ c, (collapseSpacesAux true l).head? = some c → c ≠ ' ')
  | [] => by simp [collapseSpacesAux]
  | c :: rest => by
    obtain ⟨ih1, ih2⟩ := collapseSpacesAux_props rest
    by_cases hc : c = ' '
    · subst hc
      refine ⟨?_, ?_⟩
      · intro b
        cases b
        · rw [show collapseSpacesAux false (' ' :: rest) = ' ' :: collapseSpacesAux true rest
            from by simp [collapseSpacesAux]]
          rw [List.chain'_cons']
          refine ⟨?_, ih1 true⟩
          intro y hy
          have hys := ih2 y hy
          tauto
        · simpa [collapseSpacesAux] using ih1 true
      · intro d hd
        exact ih2 d (by simpa [collapseSpacesAux] using hd)
    · refine ⟨?_, ?_⟩
      · intro b
        simp only [collapseSpacesAux, if_neg hc]
        rw [List.chain'_cons']
        exact ⟨fun y _ => by tauto, ih1 false⟩
      · intro d hd
        simp only [collapseSpacesAux, if_neg hc, List.head?_cons, Option.some.injEq] at hd
        subst hd
        exact hc

/-- C7 counterexample: deleting the comment of `"a  b\n%% c %%"` splices to
`"a  b\n"`; the double space in `"a  b"` does not result from the splice,
yet the code collapses it, producing `"a b\n"`. -/
theorem delete_collapses_unrelated_runs :
    docSp.take staleSp.startPos ++ docSp.drop staleSp.endPos = "a  b\n".toList ∧
    deleteCommentFromEditor "%%".toList docSp staleSp = "a b\n".toList ∧
    ("a b\n".toList : List Char) ≠ "a  b\n".toList := by
  exact ⟨by decide, by decide, by decide⟩

/-- C7 amended: on a confirmed delete the span is spliced out and then every
run of two or more spaces in the whole document (not only runs created by
the splice) is collapsed to a single space; all non-space characters —
newlines and blank lines included — are preserved in order, and the result
never contains two adjacent spaces. -/
theorem delete_splice_collapse (marker content : List Char) (stale m : CommentData)
    (hfind : findTextLine (extractComments content marker) stale = some m) :
    deleteCommentFromEditor marker content stale
      = collapseSpaces (content.take m.startPos ++ content.drop m.endPos) ∧
    (deleteCommentFromEditor marker content stale).filter (fun c => !(c == ' '))
      = (content.take m.startPos ++ content.drop m.endPos).filter (fun c => !(c == ' ')) ∧
    List.Chain' (fun a b2 => ¬(a = ' ' ∧ b2 = ' '))
      (deleteCommentFromEditor marker content stale) := by
  have heq : deleteCommentFromEditor marker content stale
      = collapseSpaces (content.take m.startPos ++ content.drop m.endPos) := by
    unfold deleteCommentFromEditor
    simp [hfind, sliceList_zero]
  refine ⟨heq, ?_, ?_⟩
  · rw [heq]
    exact collapseSpacesAux_filter _ false
  · rw [heq]
    exact (collapseSpacesAux_props _).1 false

theorem delete_splice_collapse_witness :
    findTextLine (extractComments docSp "%%".toList) staleSp = some staleSp ∧
    (deleteCommentFromEditor "%%".toList docSp staleSp
      = collapseSpaces (docSp.take staleSp.startPos ++ docSp.drop staleSp.endPos) ∧
    (deleteCommentFromEditor "%%".toList docSp staleSp).filter (fun c => !(c == ' '))
      = (docSp.take staleSp.startPos ++ docSp.drop staleSp.endPos).filter (fun c => !(c == ' ')) ∧
    List.Chain' (fun a b2 => ¬(a = ' ' ∧ b2 = ' '))
      (deleteCommentFromEditor "%%".toList docSp staleSp)) :=
  ⟨by decide, delete_splice_collapse "%%".toList docSp staleSp staleSp (by decide)⟩

/-! ## Claims C4 and C10: parser span invariants -/

theorem find?_range'_some {p : Nat → Bool} :
    ∀ {n s i : Nat}, (List.range' s n).find? p = some i →
      s ≤ i ∧ i < s + n ∧ p i = true ∧ ∀ k, s ≤ k → k < i → p k = false := by
  intro n
  induction n with
  | zero => intro s i h; simp [List.range'] at h
  | succ m ih =>
    intro s i h
    rw [show List.range' s (m+1) = s :: List.range' (s+1) m from rfl] at h
    cases hps : p s with
    | true =>
      rw [List.find?_cons_of_pos _ hps] at h
      obtain rfl : s = i := by simpa using h
      exact ⟨Nat.le_refl s, by omega, hps,
        fun k hk1 hk2 => absurd (Nat.lt_of_le_of_lt hk1 hk2) (Nat.lt_irrefl _)⟩
    | false =>
      rw [List.find?_cons_of_neg _ (by simp [hps])] at h
      obtain ⟨h1, h2, h3, h4⟩ := ih h
      refine ⟨by omega, by omega, h3, ?_⟩
      intro k hk1 hk2
      rcases Nat.eq_or_lt_of_le hk1 with rfl | hlt
      · exact hps
      · exact h4 k hlt hk2

theorem findFrom_some {content pat : List Char} {start i : Nat}
    (h : findFrom content pat start = some i) :
    start ≤ i ∧ i ≤ content.length ∧ occursAt content pat i = true ∧
      ∀ k, start ≤ k → k < i → occursAt content pat k = false := by
  obtain ⟨h1, h2, h3, h4⟩ := find?_range'_some h
  exact ⟨h1, by omega, h3, h4⟩

theorem occursAt_bound {content pat : List Char} {i : Nat}
    (h : occursAt content pat i = true) (hi : i ≤ content.length) :
    i + pat.length ≤ content.length := by
  have hp : pat <+: content.drop i := List.isPrefixOf_iff_prefix.mp h
  have := hp.length_le
  rw [List.length_drop] at this
  omega

/-- Main invariant of the extraction loop: every produced span starts at or
after the scan position, spans at least two delimiters, ends within the
document, and the spans are pairwise disjoint in strictly ascending order. -/
theorem extractLoop_inv (content pat : List Char) (hpat : 1 ≤ pat.length) :
    ∀ (fuel pos : Nat),
      (∀ cd ∈ extractLoop content pat pos fuel,
          pos ≤ cd.startPos ∧ cd.startPos + 2 * pat.length ≤ cd.endPos ∧
          cd.endPos ≤ content.length) ∧
      List.Pairwise (fun a b => a.startPos < b.startPos ∧ a.endPos ≤ b.startPos)
        (extractLoop content pat pos fuel) := by
  intro fuel
  induction fuel with
  | zero => intro pos; simp [extractLoop]
  | succ m ih =>
    intro pos
    cases hi : findFrom content pat pos with
    | none => simp [extractLoop, hi]
    | some i =>
      cases hj : findFrom content pat (i + pat.length) with
      | none => simp [extractLoop, hi, hj]
      | some j =>
        simp only [extractLoop, hi, hj]
        obtain ⟨hi1, hi2, hi3, _⟩ := findFrom_some hi
        obtain ⟨hj1, hj2, hj3, _⟩ := findFrom_some hj
        have hjb : j + pat.length ≤ content.length := occursAt_bound hj3 hj2
        obtain ⟨ihm, ihp⟩ := ih (j + pat.length)
        simp only [List.mem_cons, List.pairwise_cons]
        refine ⟨?_, ?_, ?_⟩
        · rintro cd (rfl | hcd)
          · refine ⟨hi1, ?_, ?_⟩ <;> simp [mkComment] <;> omega
          · obtain ⟨h1, h2, h3⟩ := ihm cd hcd
            exact ⟨by omega, h2, h3⟩
        · intro cd hcd
          obtain ⟨h1, h2, h3⟩ := ihm cd hcd
          simp [mkComment]
          omega
        · exact ihp

/-- C4: for every document and non-empty delimiter, the extracted
annotations have strictly increasing `startPos` and pairwise disjoint
`[startPos, endPos)` spans. -/
theorem extract_ascending_disjoint (content pat : List Char) (hpat : pat ≠ []) :
    List.Pairwise (fun a b => a.startPos < b.startPos ∧ a.endPos ≤ b.startPos)
      (extractComments content pat) :=
  (extractLoop_inv content pat (List.length_pos.mpr hpat) (content.length + 1) 0).2

theorem extract_ascending_disjoint_witness :
    ("%%".toList : List Char) ≠ [] ∧
    List.Pairwise (fun a b => a.startPos < b.startPos ∧ a.endPos ≤ b.startPos)
      (extractComments "# A\n%% note1 %%\n## B\n%% note2 %%\n".toList "%%".toList) :=
  ⟨by decide,
    extract_ascending_disjoint "# A\n%% note1 %%\n## B\n%% note2 %%\n".toList "%%".toList
      (by decide)⟩

/-- The raw text strictly between the two delimiters of an extracted
comment contains no complete occurrence of the delimiter: the closing
delimiter is the nearest following occurrence. -/
theorem extractLoop_no_inner (content pat : List Char) (hpat : 1 ≤ pat.length) :
    ∀ (fuel pos : Nat), ∀ cd ∈ extractLoop content pat pos fuel, ∀ k,
      pat.isPrefixOf
        ((sliceList content (cd.startPos + pat.length) (cd.endPos - pat.length)).drop k)
        = false := by
  intro fuel
  induction fuel with
  | zero => intro pos cd hcd; simp [extractLoop] at hcd
  | succ m ih =>
    intro pos cd hcd
    cases hi : findFrom content pat pos with
    | none => simp [extractLoop, hi] at hcd
    | some i =>
      cases hj : findFrom content pat (i + pat.length) with
      | none => simp [extractLoop, hi, hj] at hcd
      | some j =>
        simp only [extractLoop, hi, hj, List.mem_cons] at hcd
        rcases hcd with rfl | hcd
        · intro k
          obtain ⟨hi1, hi2, hi3, _⟩ := findFrom_some hi
          obtain ⟨hj1, hj2, hj3, hjmin⟩ := findFrom_some hj
          cases hb : pat.isPrefixOf
              ((sliceList content
                ((mkComment content pat i j).startPos + pat.length)
                ((mkComment content pat i j).endPos - pat.length)).drop k) with
          | false => rfl
          | true =>
            exfalso
            have hoff : (mkComment content pat i j).startPos + pat.length = i + pat.length ∧
                (mkComment content pat i j).endPos - pat.length = j := by
              simp [mkComment]
            rw [hoff.1, hoff.2] at hb
            have hb' : pat <+: ((content.take j).drop (i + pat.length)).drop k := by
              have := List.isPrefixOf_iff_prefix.mp hb
              simpa [sliceList] using this
            rw [List.drop_drop k (i + pat.length) (content.take j)] at hb'
            have hjlen : (content.take j).length = j := by
              simp [List.length_take]
              omega
            have hlen : pat.length ≤ j - (i + pat.length + k) := by
              have := hb'.length_le
              rw [List.length_drop, hjlen] at this
              omega
            have hmlej : i + pat.length + k ≤ j := by omega
            have hocc : occursAt content pat (i + pat.length + k) = true := by
              have hdecomp : content.drop (i + pat.length + k) =
                  (content.take j).drop (i + pat.length + k) ++ content.drop j := by
                conv_lhs => rw [← List.take_append_drop j content]
                rw [List.drop_append_of_le_length (by omega)]
              rw [occursAt, List.isPrefixOf_iff_prefix, hdecomp]
              exact hb'.trans (List.prefix_append _ _)
            have := hjmin (i + pat.length + k) (by omega) (by omega)
            rw [hocc] at this
            exact Bool.true_eq_false.mp this
        · exact ih (j + pat.length) cd hcd

/-- C10: the parser pairs each delimiter occurrence with the nearest
following occurrence, so the raw inner text of every annotation contains no
complete delimiter occurrence; consequently occurrences pair up as
(o1,o2), (o3,o4), … and a final unpaired occurrence yields no annotation
(`"%%a%%b%%"` has three occurrences and yields exactly one annotation,
`"%%a%%%%b%%"` has four and yields two). -/
theorem delimiter_pairing (content pat : List Char) (hpat : pat ≠ []) :
    (∀ cd ∈ extractComments content pat, ∀ k,
      pat.isPrefixOf
        ((sliceList content (cd.startPos + pat.length) (cd.endPos - pat.length)).drop k)
        = false) ∧
    extractComments "%%a%%b%%".toList "%%".toList =
      [{ text := ['a'], line := 0, startPos := 0, endPos := 5, fullMatch := "%%a%%".toList }] ∧
    extractComments "%%a%%%%b%%".toList "%%".toList =
      [{ text := ['a'], line := 0, startPos := 0, endPos := 5, fullMatch := "%%a%%".toList },
       { text := ['b'], line := 0, startPos := 5, endPos := 10, fullMatch := "%%b%%".toList }] :=
  ⟨extractLoop_no_inner content pat (List.length_pos.mpr hpat) (content.length + 1) 0,
    by decide, by decide⟩

theorem delimiter_pairing_witness :
    ("%%".toList : List Char) ≠ [] ∧
    ((∀ cd ∈ extractComments "%% x %% y %%".toList "%%".toList, ∀ k,
      ("%%".toList).isPrefixOf
        ((sliceList "%% x %% y %%".toList (cd.startPos + ("%%".toList).length)
          (cd.endPos - ("%%".toList).length)).drop k) = false) ∧
    extractComments "%%a%%b%%".toList "%%".toList =
      [{ text := ['a'], line := 0, startPos := 0, endPos := 5, fullMatch := "%%a%%".toList }] ∧
    extractComments "%%a%%%%b%%".toList "%%".toList =
      [{ text := ['a'], line := 0, startPos := 0, endPos := 5, fullMatch := "%%a%%".toList },
       { text := ['b'], line := 0, startPos := 5, endPos := 10, fullMatch := "%%b%%".toList }]) :=
  ⟨by decide, delimiter_pairing "%% x %% y %%".toList "%%".toList (by decide)⟩

/-! ## Claim C5: nearest-preceding header selection -/

/-- In a list whose `line` values are descending, `find?` of
`line < bound` returns a maximal such element. -/
theorem find?_first_is_max (bound : Nat) :
    ∀ (l : List HeaderData), List.Pairwise (fun a b => b.line ≤ a.line) l →
      ∀ {h : HeaderData}, l.find? (fun x => decide (x.line < bound)) = some h →
        h ∈ l ∧ h.line < bound ∧ ∀ h' ∈ l, h'.line < bound → h'.line ≤ h.line := by
  intro l
  induction l with
  | nil => intro _ h hf; simp at hf
  | cons x xs ih =>
    intro hp h hf
    obtain ⟨hx, hxs⟩ := List.pairwise_cons.mp hp
    by_cases hxb : x.line < bound
    · rw [List.find?_cons_of_pos _ (by simpa using hxb)] at hf
      obtain rfl : x = h := by simpa using hf
      refine ⟨List.mem_cons_self x xs, hxb, ?_⟩
      intro h' hmem hlt
      rcases List.mem_cons.mp hmem with rfl | hmem2
      · exact Nat.le_refl _
      · exact hx h' hmem2
    · rw [List.find?_cons_of_neg _ (by simpa using hxb)] at hf
      obtain ⟨hmem, hlt, hmax⟩ := ih hxs hf
      refine ⟨List.mem_cons_of_mem x hmem, hlt, ?_⟩
      intro h' hmem' hlt'
      rcases List.mem_cons.mp hmem' with rfl | hmem2
      · exact absurd hlt' hxb
      · exact hmax h' hmem2 hlt'

/-- C5: over a header list sorted ascending by line, the backward scan picks
the header with the largest line strictly below the annotation's line (the
no-header bucket when none exists), and the default title of a converted
callout is built from the same `findNearestHeader` rule. -/
theorem nearest_preceding_selection (headers : List HeaderData) (c : CommentData)
    (s : Settings) (hs : List.Pairwise headerLE headers) :
    (∀ h, findNearestHeader headers c.line = some h →
      h ∈ headers ∧ h.line < c.line ∧
        ∀ h' ∈ headers, h'.line < c.line → h'.line ≤ h.line) ∧
    (findNearestHeader headers c.line = none → ∀ h' ∈ headers, ¬ h'.line < c.line) ∧
    createCalloutFromComment s c headers =
      mkCallout s.printModeCalloutType (defaultCalloutTitle headers c.line) c.text ∧
    defaultCalloutTitle headers c.line =
      (match findNearestHeader headers c.line with
       | none => "Comment".toList
       | some h => "Comment: ".toList ++ h.text) ++
      " (Line ".toList ++ natChars (c.line + 1) ++ ")".toList := by
  have hrev : List.Pairwise (fun a b => b.line ≤ a.line) headers.reverse := by
    rw [List.pairwise_reverse]
    exact hs
  refine ⟨?_, ?_, rfl, rfl⟩
  · intro h hf
    obtain ⟨hmem, hlt, hmax⟩ := find?_first_is_max c.line headers.reverse hrev hf
    refine ⟨List.mem_reverse.mp hmem, hlt, ?_⟩
    intro h' hmem' hlt'
    exact hmax h' (List.mem_reverse.mpr hmem') hlt'
  · intro hf h' hmem' hlt'
    have := List.find?_eq_none.mp hf h' (List.mem_reverse.mpr hmem')
    simp at this
    omega

theorem nearest_preceding_selection_witness :
    List.Pairwise headerLE
      [({ text := ['A'], level := 1, line := 0 } : HeaderData),
       { text := ['B'], level := 2, line := 2 }] ∧
    ((∀ h, findNearestHeader
        [({ text := ['A'], level := 1, line := 0 } : HeaderData),
         { text := ['B'], level := 2, line := 2 }] 3 = some h →
      h ∈ [({ text := ['A'], level := 1, line := 0 } : HeaderData),
           { text := ['B'], level := 2, line := 2 }] ∧ h.line < 3 ∧
        ∀ h' ∈ [({ text := ['A'], level := 1, line := 0 } : HeaderData),
                { text := ['B'], level := 2, line := 2 }],
          h'.line < 3 → h'.line ≤ h.line) ∧
    (findNearestHeader
        [({ text := ['A'], level := 1, line := 0 } : HeaderData),
         { text := ['B'], level := 2, line := 2 }] 3 = none →
      ∀ h' ∈ [({ text := ['A'], level := 1, line := 0 } : HeaderData),
              { text := ['B'], level := 2, line := 2 }], ¬ h'.line < 3) ∧
    createCalloutFromComment { commentMarker := "%%".toList, printModeCalloutType := "comment".toList }
        { text := ['z'], line := 3, startPos := 10, endPos := 17, fullMatch := "%% z %%".toList }
        [({ text := ['A'], level := 1, line := 0 } : HeaderData),
         { text := ['B'], level := 2, line := 2 }] =
      mkCallout "comment".toList
        (defaultCalloutTitle
          [({ text := ['A'], level := 1, line := 0 } : HeaderData),
           { text := ['B'], level := 2, line := 2 }] 3) ['z'] ∧
    defaultCalloutTitle
        [({ text := ['A'], level := 1, line := 0 } : HeaderData),
         { text := ['B'], level := 2, line := 2 }] 3 =
      (match findNearestHeader
          [({ text := ['A'], level := 1, line := 0 } : HeaderData),
           { text := ['B'], level := 2, line := 2 }] 3 with
       | none => "Comment".toList
       | some h => "Comment: ".toList ++ h.text) ++
      " (Line ".toList ++ natChars (3 + 1) ++ ")".toList) :=
  ⟨by decide,
    nearest_preceding_selection
      [{ text := ['A'], level := 1, line := 0 }, { text := ['B'], level := 2, line := 2 }]
      { text := ['z'], line := 3, startPos := 10, endPos := 17, fullMatch := "%% z %%".toList }
      { commentMarker := "%%".toList, printModeCalloutType := "comment".toList }
      (by decide)⟩

/-! ## Stack/flush infrastructure for the hierarchy builder -/

theorem flushAttach_append (stack : List BuildEntry) :
    ∀ (g : CommentGroup) (xs ys : List CommentGroup),
      flushAttach g stack (xs ++ ys) = xs ++ flushAttach g stack ys := by
  induction stack with
  | nil => intro g xs ys; simp [flushAttach]
  | cons p ps ih => intro g xs ys; simp [flushAttach, ih]

theorem flushStack_append (stack : List BuildEntry) (xs ys : List CommentGroup) :
    flushStack stack (xs ++ ys) = xs ++ flushStack stack ys := by
  cases stack with
  | nil => simp [flushStack]
  | cons top rest => simp [flushStack, flushAttach_append]

/-- Popping the stack does not change the fully flushed forest: it only
performs part of the flushing early. -/
theorem attachPop_flush (lvl : Nat) :
    ∀ (stack : List BuildEntry) (g : CommentGroup) (res : List CommentGroup),
      flushStack (attachPop lvl g stack res).1 (attachPop lvl g stack res).2 =
        flushAttach g stack res := by
  intro stack
  induction stack with
  | nil => intro g res; simp [attachPop, flushStack, flushAttach]
  | cons p ps ih =>
    intro g res
    by_cases hlv : lvl ≤ p.header.level
    · simp only [attachPop, hlv, if_true]
      rw [ih]
      simp [flushAttach]
    · simp only [attachPop, hlv, if_false]
      simp [flushStack, flushAttach]

theorem popStack_flush (lvl : Nat) (stack : List BuildEntry) (res : List CommentGroup) :
    flushStack (popStack lvl stack res).1 (popStack lvl stack res).2 =
      flushStack stack res := by
  cases stack with
  | nil => simp [popStack]
  | cons top rest =>
    by_cases hlv : lvl ≤ top.header.level
    · simp only [popStack, hlv, if_true]
      rw [attachPop_flush]
      simp [flushStack]
    · simp [popStack, hlv]

/-- The headers on the stack after a pop: drop from the top while the level
is `≥ lvl`. -/
theorem attachPop_map_header (lvl : Nat) :
    ∀ (stack : List BuildEntry) (g : CommentGroup) (res : List CommentGroup),
      (attachPop lvl g stack res).1.map BuildEntry.header =
        (stack.map BuildEntry.header).dropWhile (fun p => decide (lvl ≤ p.level)) := by
  intro stack
  induction stack with
  | nil => intro g res; simp [attachPop]
  | cons p ps ih =>
    intro g res
    by_cases hlv : lvl ≤ p.header.level
    · simp only [attachPop, hlv, if_true]
      rw [ih]
      simp [List.dropWhile, hlv]
    · simp only [attachPop, hlv, if_false]
      simp [List.dropWhile, hlv]

theorem popStack_map_header (lvl : Nat) (stack : List BuildEntry) (res : List CommentGroup) :
    (popStack lvl stack res).1.map BuildEntry.header =
      (stack.map BuildEntry.header).dropWhile (fun p => decide (lvl ≤ p.level)) := by
  cases stack with
  | nil => simp [popStack]
  | cons top rest =>
    by_cases hlv : lvl ≤ top.header.level
    · simp only [popStack, hlv, if_true]
      rw [attachPop_map_header]
      simp [List.dropWhile, hlv]
    · simp only [popStack, hlv, if_false]
      simp [List.dropWhile, hlv]

theorem edgesList_append (p : Option HeaderData) (xs ys : List CommentGroup) :
    edgesList p (xs ++ ys) = edgesList p xs ++ edgesList p ys := by
  induction xs with
  | nil => simp [edgesList]
  | cons x xs ih => simp [edgesList, ih]

/-- `parentLabel` as the head of the stack's header list. -/
theorem parentLabel_eq_head (stack : List BuildEntry) :
    parentLabel stack = (stack.map BuildEntry.header).head? := by
  cases stack <;> simp [parentLabel]

/-- Attaching a closed group while draining appends its edges (under the
label of the entry it attaches to) after all other edges. -/
theorem flushAttach_edges :
    ∀ (stack : List BuildEntry) (g : CommentGroup) (res : List CommentGroup),
      edgesForest (flushAttach g stack res) =
        edgesForest (flushStack stack res) ++ edgesG (parentLabel stack) g := by
  intro stack
  induction stack with
  | nil =>
    intro g res
    simp [flushAttach, flushStack, edgesForest, edgesList_append, parentLabel, edgesList]
  | cons p ps ih =>
    intro g res
    have hstep : flushAttach g (p :: ps) res =
        flushAttach (closeEntry { p with children := p.children ++ [g] }) ps res := rfl
    rw [hstep, ih]
    have hflush : flushStack (p :: ps) res = flushAttach (closeEntry p) ps res := rfl
    rw [hflush, ih]
    have hedges : edgesG (parentLabel ps) (closeEntry { p with children := p.children ++ [g] }) =
        edgesG (parentLabel ps) (closeEntry p) ++ edgesG (some p.header) g := by
      simp [closeEntry, edgesG, edgesList_append, edgesList]
    rw [hedges, List.append_assoc]
    rfl

theorem find?_dropWhile_of_imp (q p : HeaderData → Bool) :
    ∀ l : List HeaderData, (∀ x, p x = true → q x = false) →
      (l.dropWhile p).find? q = l.find? q := by
  intro l
  induction l with
  | nil => intro _; rfl
  | cons x xs ih =>
    intro himp
    by_cases hpx : p x = true
    · rw [List.dropWhile_cons_of_pos hpx, ih himp,
        List.find?_cons_of_neg _ (by simp [himp x hpx])]
    · rw [List.dropWhile_cons_of_neg hpx]

theorem decide_le_eq_not_decide_lt (a b : Nat) : decide (a ≤ b) = !decide (b < a) := by
  by_cases hx : a ≤ b
  · simp [hx, Nat.not_lt.mpr hx]
  · simp [hx, Nat.lt_of_not_le hx]

/-- Main fold invariant for the tree-assembly loop: over a list of groups
that all carry headers, the edges of the final (flushed) forest extend the
edges of the current state by exactly the specification edges, provided the
open-ancestor stack and the list of already-seen headers agree on every
"nearest shallower" query. -/
theorem fold_edges (gs : List FlatGroup) :
    ∀ (stack : List BuildEntry) (res : List CommentGroup) (seen : List HeaderData),
      (∀ g ∈ gs, g.header.isSome = true) →
      (∀ lvl, (stack.map BuildEntry.header).find? (fun p => decide (p.level < lvl))
          = seen.find? (fun p => decide (p.level < lvl))) →
      edgesForest (flushStack (gs.foldl buildStep (stack, res)).1
          (gs.foldl buildStep (stack, res)).2)
        = edgesForest (flushStack stack res) ++ edgesSpec seen (gs.map FlatGroup.header) := by
  induction gs with
  | nil => intro stack res seen _ _; simp [edgesSpec]
  | cons g gs ih =>
    intro stack res seen hsome hcompat
    cases hgh : g.header with
    | none =>
      have := hsome g (List.mem_cons_self g gs)
      rw [hgh] at this
      simp at this
    | some h =>
      have hstep : buildStep (stack, res) g =
          (⟨h, g.comments, []⟩ :: (popStack h.level stack res).1,
            (popStack h.level stack res).2) := by
        simp [buildStep, hgh]
      have hfold : (g :: gs).foldl buildStep (stack, res)
          = gs.foldl buildStep (buildStep (stack, res) g) := rfl
      rw [hfold, hstep]
      have hcompat' : ∀ lvl,
          (((⟨h, g.comments, []⟩ : BuildEntry) :: (popStack h.level stack res).1).map
              BuildEntry.header).find? (fun p => decide (p.level < lvl))
            = (h :: seen).find? (fun p => decide (p.level < lvl)) := by
        intro lvl
        simp only [List.map_cons]
        by_cases hh : h.level < lvl
        · rw [List.find?_cons_of_pos _ (by simpa using hh),
            List.find?_cons_of_pos _ (by simpa using hh)]
        · rw [List.find?_cons_of_neg _ (by simpa using hh),
            List.find?_cons_of_neg _ (by simpa using hh)]
          rw [popStack_map_header]
          rw [find?_dropWhile_of_imp _ _ _ ?_]
          · exact hcompat lvl
          · intro x hx
            simp only [decide_eq_true_eq] at hx
            simp only [decide_eq_false_iff_not]
            omega
      have hrec := ih (⟨h, g.comments, []⟩ :: (popStack h.level stack res).1)
        (popStack h.level stack res).2 (h :: seen)
        (fun g' hg' => hsome g' (List.mem_cons_of_mem g hg')) hcompat'
      rw [hrec]
      have hflush : flushStack ((⟨h, g.comments, []⟩ : BuildEntry) :: (popStack h.level stack res).1)
          (popStack h.level stack res).2
          = flushAttach (closeEntry ⟨h, g.comments, []⟩) (popStack h.level stack res).1
              (popStack h.level stack res).2 := rfl
      rw [hflush, flushAttach_edges, popStack_flush]
      have hparent : parentLabel (popStack h.level stack res).1 = specParent seen h.level := by
        rw [parentLabel_eq_head, popStack_map_header]
        have hfn : (fun p : HeaderData => decide (h.level ≤ p.level))
            = (fun p : HeaderData => !decide (p.level < h.level)) := by
          funext x
          exact decide_le_eq_not_decide_lt h.level x.level
        rw [hfn, ← List.find?_eq_head?_dropWhile_not, hcompat h.level]
        rfl
      have hedgesG : edgesG (parentLabel (popStack h.level stack res).1)
          (closeEntry ⟨h, g.comments, []⟩)
          = [(specParent seen h.level, some h)] := by
        rw [hparent]
        simp [closeEntry, edgesG, edgesList]
      rw [hedgesG]
      have hspec : edgesSpec seen ((g :: gs).map FlatGroup.header)
          = (specParent seen h.level, some h) :: edgesSpec (h :: seen) (gs.map FlatGroup.header) := by
        simp [hgh, edgesSpec]
      rw [hspec, List.append_assoc]
      rfl

theorem mappedGroups_isSome (flatGroups : List FlatGroup) (allHeaders : List HeaderData) :
    ∀ g ∈ mappedGroups flatGroups allHeaders, g.header.isSome = true := by
  intro g hg
  simp only [mappedGroups, List.mem_map] at hg
  obtain ⟨h, _, rfl⟩ := hg
  cases hl : lookupByLine flatGroups h.line with
  | none => simp [hl]
  | some g0 =>
    have hpred := List.find?_some hl
    cases hg0 : g0.header with
    | none => rw [hg0] at hpred; simp at hpred
    | some hh => simp [hl, hg0]

theorem noHeaderGroupOf_none {flatGroups : List FlatGroup} {g : FlatGroup}
    (h : noHeaderGroupOf flatGroups = some g) : g.header = none := by
  have := List.find?_some h
  simpa [Option.isNone_iff_eq_none] using this

/-- Edges of the full hierarchy builder: one root edge for the null-header
group when present, then the specification edges of the per-header groups. -/
theorem edges_buildHierarchical (flatGroups : List FlatGroup) (allHeaders : List HeaderData) :
    edgesForest (buildHierarchicalGroups flatGroups allHeaders)
      = (match noHeaderGroupOf flatGroups with
         | some _ => [((none : Option HeaderData), (none : Option HeaderData))]
         | none => []) ++
        edgesSpec [] ((mappedGroups flatGroups allHeaders).map FlatGroup.header) := by
  unfold buildHierarchicalGroups mkAllGroups
  cases hno : noHeaderGroupOf flatGroups with
  | none =>
    simp only [hno, List.nil_append]
    have hfe := fold_edges (mappedGroups flatGroups allHeaders) [] [] []
      (mappedGroups_isSome _ _) (fun lvl => rfl)
    simpa [flushStack, edgesForest, edgesList] using hfe
  | some g0 =>
    simp only [hno]
    have hg0 : g0.header = none := noHeaderGroupOf_none hno
    have hstep : buildStep ([], []) g0
        = ([], [CommentGroup.mk none g0.comments [] false]) := by
      simp [buildStep, hg0]
    rw [show (([g0] ++ mappedGroups flatGroups allHeaders).foldl buildStep ([], []))
        = (mappedGroups flatGroups allHeaders).foldl buildStep (buildStep ([], []) g0)
      from by simp [List.foldl_append]]
    rw [hstep]
    have hfe := fold_edges (mappedGroups flatGroups allHeaders) []
      [CommentGroup.mk none g0.comments [] false] []
      (mappedGroups_isSome _ _) (fun lvl => rfl)
    rw [hfe]
    simp [flushStack, edgesForest, edgesList, edgesG]

/-- `addComment` only introduces the supplied nearest-header as a new group
header; existing groups keep their headers. -/
theorem addComment_header_prop (P : Option HeaderData → Prop) :
    ∀ (gs : List FlatGroup) (nh : Option HeaderData) (c : CommentData),
      (∀ g ∈ gs, P g.header) → P nh → ∀ g ∈ addComment gs nh c, P g.header := by
  intro gs
  induction gs with
  | nil =>
    intro nh c _ hnh g hg
    simp only [addComment, List.mem_singleton] at hg
    subst hg
    exact hnh
  | cons g0 gs ih =>
    intro nh c hgs hnh g hg
    simp only [addComment] at hg
    by_cases hsb : sameBucket g0.header nh
    · rw [if_pos hsb] at hg
      rcases List.mem_cons.mp hg with rfl | hmem
      · exact hgs g0 (List.mem_cons_self g0 gs)
      · exact hgs g (List.mem_cons_of_mem g0 hmem)
    · rw [if_neg hsb] at hg
      rcases List.mem_cons.mp hg with rfl | hmem
      · exact hgs g (List.mem_cons_self g gs)
      · exact ih nh c (fun g' hg' => hgs g' (List.mem_cons_of_mem g0 hg')) hnh g hmem

/-- Every header carried by a flat group built by `groupCommentsByHeaders`
is an element of the header list. -/
theorem flatGroups_headers_mem (headers : List HeaderData) :
    ∀ (comments : List CommentData) (gs0 : List FlatGroup),
      (∀ g ∈ gs0, ∀ hh, g.header = some hh → hh ∈ headers) →
      ∀ g ∈ comments.foldl
        (fun gs c => addComment gs
          (findNearestHeader (List.insertionSort headerLE headers) c.line) c) gs0,
        ∀ hh, g.header = some hh → hh ∈ headers := by
  intro comments
  induction comments with
  | nil => intro gs0 h0; exact h0
  | cons c cs ih =>
    intro gs0 h0
    refine ih _ ?_
    intro g hg hh hgh
    refine addComment_header_prop (fun oh => ∀ hh, oh = some hh → hh ∈ headers)
      gs0 _ c h0 ?_ g hg hh hgh
    intro hh' hf
    have hmem := List.mem_of_find?_eq_some hf
    rw [List.mem_reverse, List.mem_insertionSort] at hmem
    exact hmem

/-- Under distinct header lines, the per-header groups of the builder carry
exactly the sorted headers, in order. -/
theorem mappedGroups_header_eq (flatGroups : List FlatGroup) (headers : List HeaderData)
    (hQ : ∀ g ∈ flatGroups, ∀ hh, g.header = some hh → hh ∈ headers)
    (hnodup : (headers.map HeaderData.line).Nodup) :
    (mappedGroups flatGroups headers).map FlatGroup.header
      = (List.insertionSort headerLE headers).map some := by
  unfold mappedGroups
  rw [List.map_map]
  apply List.map_eq_map_iff.mpr
  intro h hmem
  simp only [Function.comp_apply]
  cases hl : lookupByLine flatGroups h.line with
  | none => simp
  | some g0 =>
    have hpred := List.find?_some hl
    have hmemg : g0 ∈ flatGroups := List.mem_reverse.mp (List.mem_of_find?_eq_some hl)
    cases hg0 : g0.header with
    | none => rw [hg0] at hpred; simp at hpred
    | some hh =>
      rw [hg0] at hpred
      simp only [beq_iff_eq] at hpred
      have hhmem : hh ∈ headers := hQ g0 hmemg hh hg0
      have hmem' : h ∈ headers := (List.mem_insertionSort headerLE).mp hmem
      have heq : hh = h :=
        List.inj_on_of_nodup_map hnodup hhmem hmem' hpred
      simp [hg0, heq]

mutual

/-- The pre-order header list is the second components of the edge list. -/
theorem groupHeaders_edges : ∀ (g : CommentGroup) (p : Option HeaderData),
    groupHeaders g = (edgesG p g).filterMap (fun e => e.2)
  | .mk h c ch b, p => by
    cases h with
    | none => simp [groupHeaders, edgesG, groupHeadersList_edges ch none]
    | some hd => simp [groupHeaders, edgesG, groupHeadersList_edges ch (some hd)]

theorem groupHeadersList_edges : ∀ (gs : List CommentGroup) (p : Option HeaderData),
    groupHeadersList gs = (edgesList p gs).filterMap (fun e => e.2)
  | [], _ => rfl
  | g :: gs, p => by
    simp [groupHeadersList, edgesList, groupHeaders_edges g p,
      groupHeadersList_edges gs p]

end

theorem filterMap_snd_edgesSpec :
    ∀ (hs : List (Option HeaderData)) (seen : List HeaderData),
      (edgesSpec seen hs).filterMap (fun e => e.2) = hs.filterMap id
  | [], _ => rfl
  | none :: hs, seen => by simp [edgesSpec, filterMap_snd_edgesSpec hs seen]
  | some h :: hs, seen => by simp [edgesSpec, filterMap_snd_edgesSpec hs (h :: seen)]

/-- The flat groups handed to the tree assembly by `groupCommentsByHeaders`. -/
def flatGroupsOf (comments : List CommentData) (headers : List HeaderData) : List FlatGroup :=
  List.insertionSort groupLE
    (comments.foldl
      (fun gs c => addComment gs
        (findNearestHeader (List.insertionSort headerLE headers) c.line) c) [])

theorem groupCommentsByHeaders_eq (comments : List CommentData) (headers : List HeaderData) :
    groupCommentsByHeaders comments headers =
      buildHierarchicalGroups (flatGroupsOf comments headers) headers := rfl

theorem flatGroupsOf_headers_mem (comments : List CommentData) (headers : List HeaderData) :
    ∀ g ∈ flatGroupsOf comments headers, ∀ hh, g.header = some hh → hh ∈ headers := by
  intro g hg
  have hg' : g ∈ comments.foldl
      (fun gs c => addComment gs
        (findNearestHeader (List.insertionSort headerLE headers) c.line) c) [] :=
    (List.mem_insertionSort groupLE).mp hg
  exact flatGroups_headers_mem headers comments [] (by simp) g hg'

/-- The pre-order header list of the built hierarchy, under distinct header
lines: exactly the headers sorted ascending by line. -/
theorem groupHeadersList_of_build (comments : List CommentData) (headers : List HeaderData)
    (hnodup : (headers.map HeaderData.line).Nodup) :
    groupHeadersList (groupCommentsByHeaders comments headers)
      = List.insertionSort headerLE headers := by
  rw [groupCommentsByHeaders_eq]
  rw [groupHeadersList_edges (buildHierarchicalGroups (flatGroupsOf comments headers) headers) none]
  rw [show edgesList none (buildHierarchicalGroups (flatGroupsOf comments headers) headers)
      = edgesForest (buildHierarchicalGroups (flatGroupsOf comments headers) headers) from rfl]
  rw [edges_buildHierarchical]
  rw [List.filterMap_append]
  rw [mappedGroups_header_eq _ _ (flatGroupsOf_headers_mem comments headers) hnodup]
  rw [filterMap_snd_edgesSpec]
  cases noHeaderGroupOf (flatGroupsOf comments headers) <;>
    simp [List.filterMap_map]

/-! ## The null-header group is a root and comes first (claim C2) -/

/-- Every group of the tree (itself included) carries a header. -/
def TreeSome (t : CommentGroup) : Prop := ∀ g ∈ allSubG t, g.header.isSome = true

theorem self_mem_allSubG (t : CommentGroup) : t ∈ allSubG t := by
  cases t
  exact List.mem_cons_self _ _

theorem mem_allSubList {g : CommentGroup} :
    ∀ ts : List CommentGroup, g ∈ allSubList ts ↔ ∃ t ∈ ts, g ∈ allSubG t := by
  intro ts
  induction ts with
  | nil => simp [allSubList]
  | cons t ts ih => simp [allSubList, ih]

theorem TreeSome_close (e : BuildEntry) (h : ∀ t ∈ e.children, TreeSome t) :
    TreeSome (closeEntry e) := by
  intro g hg
  rw [show allSubG (closeEntry e)
      = closeEntry e :: allSubList e.children from rfl] at hg
  rcases List.mem_cons.mp hg with rfl | hmem
  · simp [closeEntry, CommentGroup.header]
  · obtain ⟨t, ht, hgt⟩ := (mem_allSubList _).mp hmem
    exact h t ht g hgt

/-- All children accumulated on the stack are header-complete trees. -/
def StackKidsOK (stack : List BuildEntry) : Prop :=
  ∀ e ∈ stack, ∀ t ∈ e.children, TreeSome t

theorem attachPop_treeSome (lvl : Nat) :
    ∀ (stack : List BuildEntry) (g : CommentGroup) (res : List CommentGroup),
      TreeSome g → StackKidsOK stack →
      StackKidsOK (attachPop lvl g stack res).1 ∧
      ∃ add, (attachPop lvl g stack res).2 = res ++ add ∧ ∀ t ∈ add, TreeSome t := by
  intro stack
  induction stack with
  | nil =>
    intro g res hg _
    refine ⟨fun e he => absurd he (by simp [attachPop]), [g], by simp [attachPop], ?_⟩
    intro t ht
    rcases List.mem_singleton.mp ht with rfl
    exact hg
  | cons p ps ih =>
    intro g res hg hs
    have hkids : ∀ t ∈ p.children ++ [g], TreeSome t := by
      intro t ht
      rcases List.mem_append.mp ht with hmem | hmem
      · exact hs p (List.mem_cons_self p ps) t hmem
      · rcases List.mem_singleton.mp hmem with rfl
        exact hg
    have hps : StackKidsOK ps := fun e he => hs e (List.mem_cons_of_mem p he)
    by_cases hlv : lvl ≤ p.header.level
    · rw [show attachPop lvl g (p :: ps) res
          = attachPop lvl (closeEntry { p with children := p.children ++ [g] }) ps res
        from by simp [attachPop, hlv]]
      exact ih _ res (TreeSome_close _ hkids) hps
    · rw [show attachPop lvl g (p :: ps) res
          = ({ p with children := p.children ++ [g] } :: ps, res)
        from by simp [attachPop, hlv]]
      refine ⟨?_, [], by simp, by simp⟩
      intro e he
      rcases List.mem_cons.mp he with rfl | hmem
      · exact hkids
      · exact hps e hmem

theorem popStack_treeSome (lvl : Nat) (stack : List BuildEntry) (res : List CommentGroup)
    (hs : StackKidsOK stack) :
    StackKidsOK (popStack lvl stack res).1 ∧
    ∃ add, (popStack lvl stack res).2 = res ++ add ∧ ∀ t ∈ add, TreeSome t := by
  cases stack with
  | nil =>
    refine ⟨fun e he => absurd he (by simp [popStack]), [], by simp [popStack], by simp⟩
  | cons top rest =>
    have hrest : StackKidsOK rest := fun e he => hs e (List.mem_cons_of_mem top he)
    by_cases hlv : lvl ≤ top.header.level
    · rw [show popStack lvl (top :: rest) res = attachPop lvl (closeEntry top) rest res
        from by simp [popStack, hlv]]
      exact attachPop_treeSome lvl rest (closeEntry top) res
        (TreeSome_close top (hs top (List.mem_cons_self top rest))) hrest
    · rw [show popStack lvl (top :: rest) res = (top :: rest, res)
        from by simp [popStack, hlv]]
      exact ⟨hs, [], by simp, by simp⟩

theorem flushAttach_treeSome :
    ∀ (stack : List BuildEntry) (g : CommentGroup) (res : List CommentGroup),
      TreeSome g → StackKidsOK stack → (∀ t ∈ res, TreeSome t) →
      ∀ t ∈ flushAttach g stack res, TreeSome t := by
  intro stack
  induction stack with
  | nil =>
    intro g res hg _ hres t ht
    rw [show flushAttach g [] res = res ++ [g] from rfl] at ht
    rcases List.mem_append.mp ht with hmem | hmem
    · exact hres t hmem
    · rcases List.mem_singleton.mp hmem with rfl
      exact hg
  | cons p ps ih =>
    intro g res hg hs hres t ht
    rw [show flushAttach g (p :: ps) res
        = flushAttach (closeEntry { p with children := p.children ++ [g] }) ps res
      from rfl] at ht
    have hkids : ∀ t' ∈ p.children ++ [g], TreeSome t' := by
      intro t' ht'
      rcases List.mem_append.mp ht' with hmem | hmem
      · exact hs p (List.mem_cons_self p ps) t' hmem
      · rcases List.mem_singleton.mp hmem with rfl
        exact hg
    exact ih _ res (TreeSome_close _ hkids)
      (fun e he => hs e (List.mem_cons_of_mem p he)) hres t ht

theorem flushStack_treeSome (stack : List BuildEntry) (res : List CommentGroup)
    (hs : StackKidsOK stack) (hres : ∀ t ∈ res, TreeSome t) :
    ∀ t ∈ flushStack stack res, TreeSome t := by
  cases stack with
  | nil => exact fun t ht => hres t ht
  | cons top rest =>
    exact flushAttach_treeSome rest (closeEntry top) res
      (TreeSome_close top (hs top (List.mem_cons_self top rest)))
      (fun e he => hs e (List.mem_cons_of_mem top he)) hres

/-- Fold invariant: processing header-bearing groups only appends
header-complete trees after the initial root list `res0`. -/
theorem fold_roots (gs : List FlatGroup) :
    ∀ (stack : List BuildEntry) (res0 res1 : List CommentGroup),
      (∀ g ∈ gs, g.header.isSome = true) → StackKidsOK stack →
      (∀ t ∈ res1, TreeSome t) →
      ∃ res1', flushStack (gs.foldl buildStep (stack, res0 ++ res1)).1
          (gs.foldl buildStep (stack, res0 ++ res1)).2 = res0 ++ res1' ∧
        ∀ t ∈ res1', TreeSome t := by
  induction gs with
  | nil =>
    intro stack res0 res1 _ hs hres
    refine ⟨flushStack stack res1, ?_, flushStack_treeSome stack res1 hs hres⟩
    simp [flushStack_append]
  | cons g gs ih =>
    intro stack res0 res1 hsome hs hres
    cases hgh : g.header with
    | none =>
      have := hsome g (List.mem_cons_self g gs)
      rw [hgh] at this
      simp at this
    | some h =>
      have hstep : buildStep (stack, res0 ++ res1) g =
          (⟨h, g.comments, []⟩ :: (popStack h.level stack (res0 ++ res1)).1,
            (popStack h.level stack (res0 ++ res1)).2) := by
        simp [buildStep, hgh]
      obtain ⟨hpopstack, add, hadd, haddok⟩ :=
        popStack_treeSome h.level stack (res0 ++ res1) hs
      have hstack' : StackKidsOK
          ((⟨h, g.comments, []⟩ : BuildEntry) :: (popStack h.level stack (res0 ++ res1)).1) := by
        intro e he
        rcases List.mem_cons.mp he with rfl | hmem
        · intro t ht; simp at ht
        · exact hpopstack e hmem
      have hres' : ∀ t ∈ res1 ++ add, TreeSome t := by
        intro t ht
        rcases List.mem_append.mp ht with hmem | hmem
        · exact hres t hmem
        · exact haddok t hmem
      have hfold : (g :: gs).foldl buildStep (stack, res0 ++ res1)
          = gs.foldl buildStep (buildStep (stack, res0 ++ res1) g) := rfl
      rw [hfold, hstep, hadd, List.append_assoc]
      exact ih _ res0 (res1 ++ add)
        (fun g' hg' => hsome g' (List.mem_cons_of_mem g hg')) hstack' hres'

theorem allSubG_eq (t : CommentGroup) : allSubG t = t :: allSubList t.children := by
  cases t
  rfl

/-- In the built hierarchy, every nested group and every root except the
first carries a header (so a null-header group can only be the first root). -/
theorem build_roots_isSome (flatGroups : List FlatGroup) (allHeaders : List HeaderData) :
    (∀ g ∈ allSubList
        ((buildHierarchicalGroups flatGroups allHeaders).flatMap CommentGroup.children),
      g.header.isSome = true) ∧
    (∀ g ∈ (buildHierarchicalGroups flatGroups allHeaders).drop 1,
      g.header.isSome = true) := by
  have main : ∀ res0 res1' : List CommentGroup,
      (∀ t ∈ res0, t.children = []) → (∀ t ∈ res1', TreeSome t) →
      (∀ g ∈ allSubList ((res0 ++ res1').flatMap CommentGroup.children),
        g.header.isSome = true) ∧
      (∀ g ∈ res1', g.header.isSome = true) := by
    intro res0 res1' hres0 hok
    constructor
    · intro g hg
      obtain ⟨c, hc, hgc⟩ := (mem_allSubList _).mp hg
      obtain ⟨t, ht, hct⟩ := List.mem_flatMap.mp hc
      rcases List.mem_append.mp ht with hmem | hmem
      · rw [hres0 t hmem] at hct
        exact absurd hct (List.not_mem_nil c)
      · have hgt : g ∈ allSubG t := by
          rw [allSubG_eq]
          exact List.mem_cons_of_mem t ((mem_allSubList _).mpr ⟨c, hct, hgc⟩)
        exact hok t hmem g hgt
    · intro g hg
      exact hok g hg g (self_mem_allSubG g)
  unfold buildHierarchicalGroups mkAllGroups
  cases hno : noHeaderGroupOf flatGroups with
  | none =>
    obtain ⟨res1', heq, hok⟩ := fold_roots (mappedGroups flatGroups allHeaders) [] [] []
      (mappedGroups_isSome _ _) (fun e he => absurd he (List.not_mem_nil e)) (by simp)
    simp only [hno, List.nil_append] at heq ⊢
    rw [heq]
    obtain ⟨h1, h2⟩ := main [] res1' (by simp) hok
    refine ⟨by simpa using h1, ?_⟩
    intro g hg
    exact h2 g (List.mem_of_mem_drop hg)
  | some g0 =>
    have hg0 : g0.header = none := noHeaderGroupOf_none hno
    simp only [hno]
    rw [show (([g0] ++ mappedGroups flatGroups allHeaders).foldl buildStep ([], []))
        = (mappedGroups flatGroups allHeaders).foldl buildStep (buildStep ([], []) g0)
      from by simp [List.foldl_append]]
    rw [show buildStep ([], []) g0
        = ([], [CommentGroup.mk none g0.comments [] false] ++ [])
      from by simp [buildStep, hg0]]
    obtain ⟨res1', heq, hok⟩ := fold_roots (mappedGroups flatGroups allHeaders) []
      [CommentGroup.mk none g0.comments [] false] []
      (mappedGroups_isSome _ _) (fun e he => absurd he (List.not_mem_nil e)) (by simp)
    rw [heq]
    obtain ⟨h1, h2⟩ := main [CommentGroup.mk none g0.comments [] false] res1'
      (by intro t ht; rcases List.mem_singleton.mp ht with rfl; rfl) hok
    refine ⟨h1, ?_⟩
    intro g hg
    rw [show ([CommentGroup.mk none g0.comments [] false] ++ res1').drop 1 = res1' from rfl] at hg
    exact h2 g hg

/-- C2: with distinct header lines, the pre-order traversal of the built
forest visits exactly one heading group per header, in ascending line order
(headers with zero comments included); every nested group and every root
except possibly the first carries a header, so the synthetic null-header
group, when present, is a root and comes first. -/
theorem hierarchy_preorder_headers (comments : List CommentData) (headers : List HeaderData)
    (hnodup : (headers.map HeaderData.line).Nodup) :
    (groupHeadersList (groupCommentsByHeaders comments headers)).Perm headers ∧
    List.Pairwise (fun a b => a.line < b.line)
      (groupHeadersList (groupCommentsByHeaders comments headers)) ∧
    (∀ g ∈ allSubList
        ((groupCommentsByHeaders comments headers).flatMap CommentGroup.children),
      g.header.isSome = true) ∧
    (∀ g ∈ (groupCommentsByHeaders comments headers).drop 1,
      g.header.isSome = true) := by
  have hgh := groupHeadersList_of_build comments headers hnodup
  refine ⟨?_, ?_, ?_, ?_⟩
  · rw [hgh]
    exact List.perm_insertionSort headerLE headers
  · rw [hgh]
    have hsorted : List.Pairwise headerLE (List.insertionSort headerLE headers) :=
      List.sorted_insertionSort headerLE headers
    have hnodup' : ((List.insertionSort headerLE headers).map HeaderData.line).Nodup :=
      ((List.perm_insertionSort headerLE headers).map HeaderData.line).nodup_iff.mpr hnodup
    have hne : List.Pairwise (fun a b : HeaderData => a.line ≠ b.line)
        (List.insertionSort headerLE headers) := List.pairwise_map.mp hnodup'
    exact (hsorted.and hne).imp (fun hab => Nat.lt_of_le_of_ne hab.1 hab.2)
  · rw [groupCommentsByHeaders_eq]
    exact (build_roots_isSome _ _).1
  · rw [groupCommentsByHeaders_eq]
    exact (build_roots_isSome _ _).2

def hdA : HeaderData := { text := ['A'], level := 1, line := 0 }
def hdB : HeaderData := { text := ['B'], level := 2, line := 2 }
def hdC : HeaderData := { text := ['C'], level := 2, line := 5 }
def hdD : HeaderData := { text := ['D'], level := 1, line := 8 }

theorem hierarchy_preorder_headers_witness :
    ([hdA, hdB, hdC, hdD].map HeaderData.line).Nodup ∧
    ((groupHeadersList (groupCommentsByHeaders [] [hdA, hdB, hdC, hdD])).Perm
        [hdA, hdB, hdC, hdD] ∧
    List.Pairwise (fun a b => a.line < b.line)
      (groupHeadersList (groupCommentsByHeaders [] [hdA, hdB, hdC, hdD])) ∧
    (∀ g ∈ allSubList
        ((groupCommentsByHeaders [] [hdA, hdB, hdC, hdD]).flatMap CommentGroup.children),
      g.header.isSome = true) ∧
    (∀ g ∈ (groupCommentsByHeaders [] [hdA, hdB, hdC, hdD]).drop 1,
      g.header.isSome = true)) :=
  ⟨by decide, hierarchy_preorder_headers [] [hdA, hdB, hdC, hdD] (by decide)⟩

theorem filter_edgesSpec_some :
    ∀ (hs seen : List HeaderData),
      (edgesSpec seen (hs.map some)).filter (fun e => e.2.isSome)
        = edgesSpec seen (hs.map some)
  | [], _ => rfl
  | h :: hs, seen => by
    simp [edgesSpec, filter_edgesSpec_some hs (h :: seen)]

/-- C3: in the built forest, every heading group's parent edge points at the
nearest preceding heading with strictly smaller level (`none` = root when no
such heading precedes); the example headers H1 A, H2 B, H2 C, H1 D yield the
forest `[A[B, C], D]`, and a malformed sequence (H3 before any H1) is not
rejected — both headings simply become roots. -/
theorem hierarchy_nesting (comments : List CommentData) (headers : List HeaderData)
    (hnodup : (headers.map HeaderData.line).Nodup) :
    (edgesForest (groupCommentsByHeaders comments headers)).filter (fun e => e.2.isSome)
      = edgesSpec [] ((List.insertionSort headerLE headers).map some) ∧
    groupCommentsByHeaders [] [hdA, hdB, hdC, hdD] =
      [.mk (some hdA) [] [.mk (some hdB) [] [] false, .mk (some hdC) [] [] false] false,
       .mk (some hdD) [] [] false] ∧
    groupCommentsByHeaders [] [{ text := ['X'], level := 3, line := 0 },
        { text := ['Y'], level := 1, line := 2 }] =
      [.mk (some { text := ['X'], level := 3, line := 0 }) [] [] false,
       .mk (some { text := ['Y'], level := 1, line := 2 }) [] [] false] := by
  refine ⟨?_, by rfl, by rfl⟩
  rw [groupCommentsByHeaders_eq, edges_buildHierarchical, List.filter_append,
    mappedGroups_header_eq _ _ (flatGroupsOf_headers_mem comments headers) hnodup,
    filter_edgesSpec_some]
  cases noHeaderGroupOf (flatGroupsOf comments headers) <;> simp

theorem hierarchy_nesting_witness :
    ([hdA, hdB, hdC, hdD].map HeaderData.line).Nodup ∧
    ((edgesForest (groupCommentsByHeaders [] [hdA, hdB, hdC, hdD])).filter
        (fun e => e.2.isSome)
      = edgesSpec [] ((List.insertionSort headerLE [hdA, hdB, hdC, hdD]).map some) ∧
    groupCommentsByHeaders [] [hdA, hdB, hdC, hdD] =
      [.mk (some hdA) [] [.mk (some hdB) [] [] false, .mk (some hdC) [] [] false] false,
       .mk (some hdD) [] [] false] ∧
    groupCommentsByHeaders [] [{ text := ['X'], level := 3, line := 0 },
        { text := ['Y'], level := 1, line := 2 }] =
      [.mk (some { text := ['X'], level := 3, line := 0 }) [] [] false,
       .mk (some { text := ['Y'], level := 1, line := 2 }) [] [] false]) :=
  ⟨by decide, hierarchy_nesting [] [hdA, hdB, hdC, hdD] (by decide)⟩

/-! ## Claim C8: bulk conversion and restore -/

/-- Simultaneous-replacement reading of the bulk conversion: the document is
the original segments interleaved with the callouts of the (ascending)
annotations. -/
def spliceAllC (s : Settings) (headers : List HeaderData) (content : List Char) :
    Nat → List CommentData → List Char
  | pos, [] => content.drop pos
  | pos, c :: rest =>
    (content.take c.startPos).drop pos ++ createCalloutFromComment s c headers ++
      spliceAllC s headers content c.endPos rest

theorem orderedInsert_of_not_rel (r : CommentData → CommentData → Prop) [DecidableRel r]
    (a : CommentData) :
    ∀ l : List CommentData, (∀ b ∈ l, ¬ r a b) → List.orderedInsert r a l = l ++ [a] := by
  intro l
  induction l with
  | nil => intro _; rfl
  | cons b bs ih =>
    intro hnot
    rw [List.orderedInsert, if_neg (hnot b (List.mem_cons_self b bs))]
    rw [ih (fun b' hb' => hnot b' (List.mem_cons_of_mem b hb'))]
    rfl

/-- Sorting a strictly ascending list by descending start offset reverses it
(the `b.startPos - a.startPos` comparator of `convertCommentsToCallouts`). -/
theorem insertionSort_desc_of_asc :
    ∀ l : List CommentData, List.Pairwise (fun a b => a.startPos < b.startPos) l →
      List.insertionSort startGE l = l.reverse := by
  intro l
  induction l with
  | nil => intro _; rfl
  | cons c cs ih =>
    intro hp
    obtain ⟨hc, hcs⟩ := List.pairwise_cons.mp hp
    rw [List.insertionSort, ih hcs]
    rw [orderedInsert_of_not_rel startGE c cs.reverse ?_]
    · simp
    · intro b hb
      have hb' : b ∈ cs := List.mem_reverse.mp hb
      have := hc b hb'
      unfold startGE
      omega

theorem foldr_replace_eq_spliceAllC (s : Settings) (headers : List HeaderData)
    (content : List Char) :
    ∀ (cs : List CommentData) (pos : Nat),
      (∀ c ∈ cs, c.startPos ≤ c.endPos ∧ c.endPos ≤ content.length) →
      List.Chain' (fun a b => a.endPos ≤ b.startPos) cs →
      (∀ c ∈ cs.head?, pos ≤ c.startPos) →
      cs.foldr (fun c acc => replaceSpan acc c.startPos c.endPos
          (createCalloutFromComment s c headers)) content
        = content.take pos ++ spliceAllC s headers content pos cs := by
  intro cs
  induction cs with
  | nil =>
    intro pos _ _ _
    simp [spliceAllC]
  | cons c rest ih =>
    intro pos hbounds hchain hhead
    obtain ⟨hse, hel⟩ := hbounds c (List.mem_cons_self c rest)
    have hchain' := (List.chain'_cons'.mp hchain).2
    have hheadrel := (List.chain'_cons'.mp hchain).1
    have hrec := ih c.endPos
      (fun c' hc' => hbounds c' (List.mem_cons_of_mem c hc')) hchain' hheadrel
    rw [List.foldr_cons, hrec]
    have hA : (content.take c.endPos).length = c.endPos := length_take_of_le hel
    unfold replaceSpan
    rw [sliceList_zero]
    rw [List.take_append_of_le_length (by omega),
      List.take_take, Nat.min_eq_left hse,
      drop_append_len hA]
    have hpos : pos ≤ c.startPos := hhead c rfl
    rw [show spliceAllC s headers content pos (c :: rest)
        = (content.take c.startPos).drop pos ++ createCalloutFromComment s c headers ++
            spliceAllC s headers content c.endPos rest from rfl]
    have htp : content.take pos ++ (content.take c.startPos).drop pos
        = content.take c.startPos := by
      conv_lhs => rw [show content.take pos = (content.take c.startPos).take pos from by
        rw [List.take_take, Nat.min_eq_left hpos]]
      exact List.take_append_drop pos (content.take c.startPos)
    rw [← List.append_assoc, ← List.append_assoc, htp]

/-- C8: bulk conversion is a pure function of (text, settings) — the
converted text is the original segments interleaved with callouts, obtained
by replacing the (disjoint) spans in decreasing start-offset order — and
applying the export flow's restore action after the converted text has been
swapped into the editor (and arbitrarily further transformed by `f`) yields
byte-for-byte the original text. -/
theorem bulk_conversion_roundtrip (s : Settings) (text : List Char)
    (f : List Char → List Char) (hpat : s.commentMarker ≠ []) :
    ((triggerPDFExport (convertCommentsToCallouts s text) text).2
        (f (triggerPDFExport (convertCommentsToCallouts s text) text).1) = text) ∧
    convertCommentsToCallouts s text =
      (if (extractComments text s.commentMarker).length = 0 then text
       else spliceAllC s (extractHeaders text) text 0
         (extractComments text s.commentMarker)) := by
  refine ⟨rfl, ?_⟩
  unfold convertCommentsToCallouts
  by_cases hlen : (extractComments text s.commentMarker).length = 0
  · simp [hlen]
  · rw [if_neg hlen, if_neg hlen]
    have hplen : 1 ≤ s.commentMarker.length :=
      List.length_pos.mpr hpat
    have hinv := extractLoop_inv text s.commentMarker hplen (text.length + 1) 0
    have hpw : List.Pairwise (fun a b => a.startPos < b.startPos)
        (extractComments text s.commentMarker) :=
      hinv.2.imp (fun hab => hab.1)
    rw [insertionSort_desc_of_asc _ hpw, List.foldl_reverse]
    have := foldr_replace_eq_spliceAllC s (extractHeaders text) text
      (extractComments text s.commentMarker) 0
      (fun c hc => by
        obtain ⟨h1, h2, h3⟩ := hinv.1 c hc
        exact ⟨by omega, h3⟩)
      (hinv.2.imp (fun hab => hab.2)).chain'
      (fun c _ => Nat.zero_le _)
    simpa using this

def sEx : Settings :=
  { commentMarker := "%%".toList, printModeCalloutType := "comment".toList }

def docEx : List Char := "# A\n%% note1 %%\n".toList

theorem bulk_conversion_roundtrip_witness :
    (sEx.commentMarker ≠ []) ∧
    (((triggerPDFExport (convertCommentsToCallouts sEx docEx) docEx).2
        ((fun x => x) (triggerPDFExport (convertCommentsToCallouts sEx docEx) docEx).1)
        = docEx) ∧
    convertCommentsToCallouts sEx docEx =
      (if (extractComments docEx sEx.commentMarker).length = 0 then docEx
       else spliceAllC sEx (extractHeaders docEx) docEx 0
         (extractComments docEx sEx.commentMarker))) :=
  ⟨by decide, bulk_conversion_roundtrip sEx docEx (fun x => x) (by decide)⟩
